import Mathlib

/-!
Verification of scripts/update_readme.py.

The script is embedded shallowly: Python strings become `List Char`; the two
regex-based operations (the marker-pair scanner `MARKER_PAIR_RE.findall` and
the substitution in `replace_between_markers`, including `pattern.sub`'s
replacement-template expansion with its backreferences, escapes and error
cases) become executable recursive functions with the same leftmost,
non-greedy matching semantics; JSON values become an inductive type with
Python's `==` (numeric across booleans and integers), truthiness and
hashability; and the process (file presence, parsed JSON, GitHub request
outcomes, uncaught exceptions) is modelled by an explicit environment
record threaded through a functional `main`.
-/

namespace UpdateReadme

/-- Python strings are modelled as lists of characters. -/
abbrev Str := List Char

/-- The exact start sentinel built by `replace_between_markers`:
`<!-- PROJECTS:{marker_key}:START -->`. -/
def startM (k : Str) : Str := "<!-- PROJECTS:".data ++ k ++ ":START -->".data

/-- The exact end sentinel built by `replace_between_markers`:
`<!-- PROJECTS:{marker_key}:END -->`. -/
def endM (k : Str) : Str := "<!-- PROJECTS:".data ++ k ++ ":END -->".data

/-- Split `text` at the first (leftmost) occurrence of `sep`: returns the part
strictly before the occurrence and the part strictly after it.  This is the
semantics of searching for an escaped literal in a Python regex. -/
def splitAtFirst (sep : Str) : Str → Option (Str × Str)
  | [] => if sep.isPrefixOf ([] : Str) then some ([], []) else none
  | c :: rest =>
    if sep.isPrefixOf (c :: rest) then some ([], (c :: rest).drop sep.length)
    else (splitAtFirst sep rest).map fun p => (c :: p.1, p.2)

/-- The region found by the compiled pattern
`re.escape(start) + "(.*?)" + re.escape(end)` with `re.DOTALL`: the leftmost
match starts at the first occurrence of the start sentinel, and the
non-greedy `(.*?)` ends it at the first occurrence of the end sentinel after
that.  Returns (text before the match, inner text, text after the match). -/
def findRegion (text k : Str) : Option (Str × Str × Str) :=
  match splitAtFirst (startM k) text with
  | none => none
  | some (pre, rest) =>
    match splitAtFirst (endM k) rest with
    | none => none
    | some (inner, post) => some (pre, inner, post)

/-- The literal splice over the leftmost match (what the template expansion
of `pattern.sub` produces when the replacement string holds no backslash):
the text strictly between the sentinels becomes `inner_text`. -/
def spliceFirst (readme_text marker_key inner_text : Str) : Str :=
  match findRegion readme_text marker_key with
  | none => readme_text
  | some (pre, _, post) =>
      pre ++ startM marker_key ++ inner_text ++ endM marker_key ++ post

/-- Python regex `\s` on ASCII text (also the whitespace `int()` strips). -/
def isSpaceChar (c : Char) : Bool :=
  c = ' ' || c = '\t' || c = '\n' || c = '\r' || c = '\x0b' || c = '\x0c'

/-- The escape table of `re` replacement templates:
`\a \b \f \n \r \t \v \\`. -/
def templEsc (c : Char) : Option Char :=
  if c = 'a' then some '\x07'
  else if c = 'b' then some '\x08'
  else if c = 'f' then some '\x0c'
  else if c = 'n' then some '\n'
  else if c = 'r' then some '\r'
  else if c = 't' then some '\t'
  else if c = 'v' then some '\x0b'
  else if c = '\\' then some '\\'
  else none

def isOctChar (c : Char) : Bool := '0' ≤ c && c ≤ '7'

/-- Digits of a Python `int` literal after its first digit: underscores only
strictly between digits. -/
def digitsTail : Str → Option Str
  | [] => some []
  | '_' :: rest =>
    match rest with
    | c :: _ => if c.isDigit then digitsTail rest else none
    | [] => none
  | c :: rest => if c.isDigit then (digitsTail rest).map (c :: ·) else none

/-- A nonempty ASCII digit string (underscore separators allowed) as a
number. -/
def pyNatParse : Str → Option Nat
  | [] => none
  | c :: rest =>
    if c.isDigit then
      (digitsTail rest).map fun ds =>
        (c :: ds).foldl (fun acc d => acc * 10 + (d.toNat - '0'.toNat)) 0
    else none

/-- Python `int(name)` on a template group name: surrounding whitespace and
an optional sign are allowed; a negative or unparsable name gives `none`
(the source raises either way: `ValueError` becomes `re.error`, and an
identifier name raises `IndexError` on the empty group index of this
pattern). -/
def pyIntName (s : Str) : Option Nat :=
  let t := (((s.dropWhile isSpaceChar).reverse).dropWhile isSpaceChar).reverse
  match t with
  | '+' :: rest => pyNatParse rest
  | '-' :: _ => none
  | rest => pyNatParse rest

/-- `Tokenizer.getuntil(">")`: the characters before the first `>` and the
text after it; `none` when no `>` follows. -/
def takeUntilGt : Str → Option (Str × Str)
  | [] => none
  | c :: rest =>
    if c = '>' then some ([], rest)
    else (takeUntilGt rest).map fun p => (c :: p.1, p.2)

/-- `re` replacement-template parsing and expansion
(`re._parser.parse_template` plus group substitution) for a match whose
groups all participated: `groups` lists the text of group 0 (the whole
match) and of each capturing group.  `.error` is an uncaught exception: a
trailing backslash, an unknown ASCII-letter escape, a reference to a group
the pattern does not have, an octal escape above `0o377`, or a malformed
`\g<...>` name.  `\0` plus up to two octal digits is an octal character
escape; `\1`–`\99` are group references unless three octal digits follow the
backslash; escapes of non-letters outside the table are kept verbatim.
Fuel (the template length) bounds the recursion. -/
def expandTemplAux (groups : List Str) : Nat → Str → Except Unit Str
  | _, [] => .ok []
  | 0, _ :: _ => .error ()
  | fuel + 1, c :: rest =>
    if c ≠ '\\' then (expandTemplAux groups fuel rest).map (fun r => c :: r)
    else
      match rest with
      | [] => .error ()
      | e :: rest2 =>
        if e = 'g' then
          match rest2 with
          | '<' :: rest3 =>
            match takeUntilGt rest3 with
            | none => .error ()
            | some (name, rest4) =>
              if name = [] then .error ()
              else
                match pyIntName name with
                | none => .error ()
                | some idx =>
                  match groups.get? idx with
                  | none => .error ()
                  | some g =>
                    (expandTemplAux groups fuel rest4).map (fun r => g ++ r)
          | _ => .error ()
        else if e = '0' then
          let ds := (rest2.takeWhile isOctChar).take 2
          let v := ds.foldl (fun acc d => acc * 8 + (d.toNat - '0'.toNat)) 0
          (expandTemplAux groups fuel (rest2.drop ds.length)).map
            (fun r => Char.ofNat v :: r)
        else if e.isDigit then
          match rest2 with
          | d2 :: rest3 =>
            if d2.isDigit then
              match rest3 with
              | d3 :: rest4 =>
                if isOctChar e && isOctChar d2 && isOctChar d3 then
                  let v := (e.toNat - '0'.toNat) * 64 + (d2.toNat - '0'.toNat) * 8 +
                    (d3.toNat - '0'.toNat)
                  if v > 255 then .error ()
                  else (expandTemplAux groups fuel rest4).map
                    (fun r => Char.ofNat v :: r)
                else
                  match groups.get? ((e.toNat - '0'.toNat) * 10 +
                      (d2.toNat - '0'.toNat)) with
                  | none => .error ()
                  | some g =>
                    (expandTemplAux groups fuel rest3).map (fun r => g ++ r)
              | [] =>
                match groups.get? ((e.toNat - '0'.toNat) * 10 +
                    (d2.toNat - '0'.toNat)) with
                | none => .error ()
                | some g => (expandTemplAux groups fuel rest3).map (fun r => g ++ r)
            else
              match groups.get? (e.toNat - '0'.toNat) with
              | none => .error ()
              | some g => (expandTemplAux groups fuel rest2).map (fun r => g ++ r)
          | [] =>
            match groups.get? (e.toNat - '0'.toNat) with
            | none => .error ()
            | some g => (expandTemplAux groups fuel rest2).map (fun r => g ++ r)
        else
          match templEsc e with
          | some ch => (expandTemplAux groups fuel rest2).map (fun r => ch :: r)
          | none =>
            if e.isAlpha then .error ()
            else (expandTemplAux groups fuel rest2).map (fun r => '\\' :: e :: r)

def expandTemplate (groups : List Str) (t : Str) : Except Unit Str :=
  expandTemplAux groups t.length t

/-- `replace_between_markers(readme_text, marker_key, inner_text)`: if the
pattern has no match the original text is returned (no `sub`, so a bad
template cannot raise); otherwise `pattern.sub(replacement, readme_text,
count=1)` expands the replacement template `start + inner_text + end`
against the leftmost match — group 0 is the whole match, group 1 the old
inner text — and splices the expansion over it.  `.error` is the uncaught
`re.error`/`IndexError` a bad template raises. -/
def replace_between_markers (readme_text marker_key inner_text : Str) :
    Except Unit Str :=
  match findRegion readme_text marker_key with
  | none => .ok readme_text
  | some (pre, inner, post) =>
    match expandTemplate
        [startM marker_key ++ inner ++ endM marker_key, inner]
        (startM marker_key ++ inner_text ++ endM marker_key) with
    | .error e => .error e
    | .ok rep => .ok (pre ++ rep ++ post)

/-- Number of newline characters in a text. -/
def countNL (t : Str) : Nat := t.count '\n'

/-- Number of lines of a text that does not end with a line break
(one more than the number of line breaks). -/
def lineCount (t : Str) : Nat := countNL t + 1

def ceDoc4 : Str := ("<!-- PROJECTS:c:START -->" ++ "\n" ++ "<!-- PROJECTS:c:END -->").data

def w4doc : Str := ("A<!-- PROJECTS:k:START -->x" ++ "\n" ++ "y<!-- PROJECTS:k:END -->B").data

def ceDoc5 : Str := ("<!-- PROJECTS:c:START --><!-- PROJECTS:c:END -->").data

def ceContent5 : Str := ("<!-- PROJECTS:c:END -->").data

def w5doc : Str := ("<!-- PROJECTS:python:START -->old<!-- PROJECTS:python:END -->").data

def w5c : Str := ("[![A](i)](h)").data

/- ### The marker-pair scanner (MARKER_PAIR_RE.findall)

The pattern
`(<!--\s*PROJECTS:([A-Za-z0-9\+\-]+):START\s*-->)(.*?)(<!--\s*PROJECTS:\2:END\s*-->)`
with DOTALL is matched deterministically: the whitespace and key classes are
disjoint from the literal characters that follow them, so greedy matching of
`\s*` and `[A-Za-z0-9+-]+` never needs backtracking, and the non-greedy
`(.*?)` stops at the first position where the end sentinel (with the
backreferenced key) matches.  `findall` scans left to right, resuming after
each non-overlapping match. -/
/-- The key character class `[A-Za-z0-9+-]`. -/
def isKeyChar (c : Char) : Bool := c.isAlphanum || c = '+' || c = '-'

/-- Consume an exact literal at the head of the text. -/
def dropLit (lit t : Str) : Option Str :=
  if lit.isPrefixOf t then some (t.drop lit.length) else none

/-- Greedy `\s*`. -/
def dropWS : Str → Str
  | [] => []
  | c :: rest => if isSpaceChar c then dropWS rest else c :: rest

/-- Greedy `[A-Za-z0-9+-]*` (maximal munch of key characters). -/
def munchKey : Str → Str × Str
  | [] => ([], [])
  | c :: rest =>
    if isKeyChar c then
      let p := munchKey rest
      (c :: p.1, p.2)
    else ([], c :: rest)

/-- Match `<!--\s*PROJECTS:([A-Za-z0-9+-]+):START\s*-->` at the head of the
text; on success return the captured key and the remaining text. -/
def parseStartSent (t : Str) : Option (Str × Str) :=
  (dropLit "<!--".data t).bind fun t1 =>
    (dropLit "PROJECTS:".data (dropWS t1)).bind fun t2 =>
      (if (munchKey t2).1 = [] then none else some (munchKey t2)).bind fun mk =>
        (dropLit ":START".data mk.2).bind fun t3 =>
          (dropLit "-->".data (dropWS t3)).map fun t4 => (mk.1, t4)

/-- Match `<!--\s*PROJECTS:\2:END\s*-->` (with the backreferenced key `k`) at
the head of the text; on success return the remaining text. -/
def parseEndSent (k t : Str) : Option Str :=
  (dropLit "<!--".data t).bind fun t1 =>
    (dropLit ("PROJECTS:".data ++ k ++ ":END".data) (dropWS t1)).bind fun t2 =>
      (dropLit "-->".data (dropWS t2)).map fun t3 => t3

/-- The non-greedy `(.*?)` before the end sentinel: find the first position
where the end sentinel for `k` matches; return the skipped inner text and the
text after the sentinel. -/
def findEnd (k : Str) : Str → Option (Str × Str)
  | [] =>
    match parseEndSent k [] with
    | some r => some ([], r)
    | none => none
  | c :: rest =>
    match parseEndSent k (c :: rest) with
    | some r => some ([], r)
    | none => (findEnd k rest).map fun p => (c :: p.1, p.2)

/-- Try to match the full marker-pair pattern at the head of the text. -/
def tryPair (t : Str) : Option (Str × Str) :=
  match parseStartSent t with
  | none => none
  | some (k, r1) =>
    match findEnd k r1 with
    | none => none
    | some (_, r2) => some (k, r2)

/-- `findall` driver: at each position try the full pattern; on a match
record the key and resume after the match, otherwise advance one character.
Fuel (the length of the text) bounds the recursion. -/
def scanAux : Nat → Str → List Str
  | 0, _ => []
  | _, [] => []
  | fuel + 1, c :: rest =>
    match tryPair (c :: rest) with
    | some (k, after) => k :: scanAux fuel after
    | none => scanAux fuel rest

/-- All keys of marker pairs found in the document, in match order
(`MARKER_PAIR_RE.findall`), duplicates included. -/
def scanKeys (t : Str) : List Str := scanAux t.length t

/-- Keep the first occurrence of each element, preserving order. -/
def dedupFirstAux : List Str → List Str → List Str
  | [], _ => []
  | k :: rest, seen =>
    if k ∈ seen then dedupFirstAux rest seen
    else k :: dedupFirstAux rest (k :: seen)

def dedupFirst (l : List Str) : List Str := dedupFirstAux l []

/-- `collect_readme_marker_keys`: the set of keys found by the scanner.
CPython set iteration order is unspecified; the set is modelled as the list
of keys in first-found order, and theorems about the orchestrator's
iteration quantify over all permutations of it. -/
def collect_readme_marker_keys (t : Str) : List Str := dedupFirst (scanKeys t)

/- ### JSON values and Python truthiness -/
/-- A parsed JSON value (`json.load`).  Numbers are modelled as integers,
which covers every value the claims exercise. -/
inductive JValue where
  | jnull
  | jbool (b : Bool)
  | jnum (n : Int)
  | jstr (s : Str)
  | jarr (items : List JValue)
  | jobj (fields : List (Str × JValue))

mutual

/-- Python `==` on parsed JSON values.  Booleans are numbers: `True == 1`
and `False == 0` (`bool` is an `int` subclass), so booleans and integers
compare by numeric value; containers compare elementwise.  (The only `==`
the program performs on these values is set membership of the repo value,
which raises on unhashable containers before comparing — see
`processItem` — so the container branches only serve the model-side
characterizations.) -/
def jeq : JValue → JValue → Bool
  | .jnull, .jnull => true
  | .jbool a, .jbool b => a == b
  | .jbool a, .jnum m => (if a then (1 : Int) else 0) == m
  | .jnum n, .jbool b => n == (if b then (1 : Int) else 0)
  | .jnum a, .jnum b => a == b
  | .jstr a, .jstr b => a == b
  | .jarr a, .jarr b => jeqList a b
  | .jobj a, .jobj b => jeqFields a b
  | _, _ => false

def jeqList : List JValue → List JValue → Bool
  | [], [] => true
  | x :: xs, y :: ys => jeq x y && jeqList xs ys
  | _, _ => false

def jeqFields : List (Str × JValue) → List (Str × JValue) → Bool
  | [], [] => true
  | (k1, v1) :: r1, (k2, v2) :: r2 => k1 == k2 && jeq v1 v2 && jeqFields r1 r2
  | _, _ => false

end

mutual

/-- The numeric canonical form behind Python `==` on these values: booleans
become their integer value; `jeq` holds exactly when the canonical forms
are equal (model helper). -/
def canon : JValue → JValue
  | .jnull => .jnull
  | .jbool b => .jnum (if b then 1 else 0)
  | .jnum n => .jnum n
  | .jstr s => .jstr s
  | .jarr xs => .jarr (canonList xs)
  | .jobj fs => .jobj (canonFields fs)

def canonList : List JValue → List JValue
  | [] => []
  | x :: xs => canon x :: canonList xs

def canonFields : List (Str × JValue) → List (Str × JValue)
  | [] => []
  | (k, v) :: rest => (k, canon v) :: canonFields rest

end

/-- Python truthiness of a parsed JSON value (`bool(x)`). -/
def truthy : JValue → Bool
  | .jnull => false
  | .jbool b => b
  | .jnum n => n != 0
  | .jstr s => !s.isEmpty
  | .jarr items => !items.isEmpty
  | .jobj fields => !fields.isEmpty

/-- Truthiness of `item.get(key)`: a missing field gives `None`, which is
falsy. -/
def truthyOpt : Option JValue → Bool
  | none => false
  | some v => truthy v

/-- `hash(v)` raises `TypeError: unhashable type` exactly on lists and
dicts; every other `json.load` value is hashable. -/
def unhashable : JValue → Bool
  | .jarr _ => true
  | .jobj _ => true
  | _ => false

mutual

/-- Python `repr` of a parsed JSON value.  Scalar renderings (`None`,
booleans, integers) are exact; for strings nested inside containers the
quote choice and escaping of `repr` are not modelled (single quotes always).
Container values reach this rendering only as badge text for a
container-valued `name` or as the display of an unmapped `language` — bytes
no claim constrains — while equality, truthiness and hashability never use
it. -/
def pyRepr : JValue → Str
  | .jnull => "None".data
  | .jbool true => "True".data
  | .jbool false => "False".data
  | .jnum n => (toString n).data
  | .jstr s => '\'' :: (s ++ ['\''])
  | .jarr items => '[' :: (pyReprList items ++ [']'])
  | .jobj fields => '{' :: (pyReprFields fields ++ ['}'])

def pyReprList : List JValue → Str
  | [] => []
  | [v] => pyRepr v
  | v :: rest => pyRepr v ++ ", ".data ++ pyReprList rest

def pyReprFields : List (Str × JValue) → Str
  | [] => []
  | [(k, v)] => '\'' :: (k ++ ['\'']) ++ ": ".data ++ pyRepr v
  | (k, v) :: rest =>
      '\'' :: (k ++ ['\'']) ++ ": ".data ++ pyRepr v ++ ", ".data ++ pyReprFields rest

end

/-- Python `str` of a parsed JSON value. -/
def pyStr : JValue → Str
  | .jstr s => s
  | v => pyRepr v

/-- `dict.get` on the fields of a JSON object (`json.loads` keeps the last
binding of a duplicated key). -/
def getField (fields : List (Str × JValue)) (k : Str) : Option JValue :=
  fields.foldl (fun acc f => if f.1 = k then some f.2 else acc) none

/- ### Language normalization and badge building -/
/-- The static `LANG_MAP` table: alias -> (DisplayName, marker_key). -/
def LANG_MAP : List (Str × (Str × Str)) :=
  [("c".data, ("C".data, "C".data)),
   ("c++".data, ("C++".data, "cpp".data)),
   ("cpp".data, ("C++".data, "cpp".data)),
   ("python".data, ("Python".data, "python".data)),
   ("py".data, ("Python".data, "python".data)),
   ("typescript".data, ("TypeScript".data, "typescript".data)),
   ("ts".data, ("TypeScript".data, "typescript".data)),
   ("shell".data, ("Shell".data, "shell".data)),
   ("bash".data, ("Shell".data, "shell".data)),
   ("sh".data, ("Shell".data, "shell".data)),
   ("zsh".data, ("Shell".data, "shell".data)),
   ("docker".data, ("Docker".data, "docker".data)),
   ("git".data, ("Git".data, "git".data))]

def lookupAssoc {α : Type} : List (Str × α) → Str → Option α
  | [], _ => none
  | (k', v) :: rest, k => if k' = k then some v else lookupAssoc rest k

/-- Python `str.strip()` (whitespace at both ends). -/
def pyStrip (s : Str) : Str :=
  ((s.dropWhile isSpaceChar).reverse.dropWhile isSpaceChar).reverse

/-- Python `str.lower()` (ASCII case mapping suffices for the table keys). -/
def pyLower (s : Str) : Str := s.map Char.toLower

/-- `normalize_language(raw)`: falsy input gives None; otherwise
`str(raw).strip().lower()` is looked up in the table. -/
def normalize_language (raw : JValue) : Option (Str × Str) :=
  if truthy raw then lookupAssoc LANG_MAP (pyLower (pyStrip (pyStr raw)))
  else none

def hexDigit (n : Nat) : Char :=
  if n < 10 then Char.ofNat ('0'.toNat + n) else Char.ofNat ('A'.toNat + n - 10)

/-- UTF-8 bytes of a character. -/
def utf8Bytes (c : Char) : List Nat :=
  let n := c.toNat
  if n < 0x80 then [n]
  else if n < 0x800 then [0xC0 + n / 0x40, 0x80 + n % 0x40]
  else if n < 0x10000 then
    [0xE0 + n / 0x1000, 0x80 + (n / 0x40) % 0x40, 0x80 + n % 0x40]
  else
    [0xF0 + n / 0x40000, 0x80 + (n / 0x1000) % 0x40, 0x80 + (n / 0x40) % 0x40,
      0x80 + n % 0x40]

/-- `urllib.parse.quote(s, safe="")`: percent-encode every character outside
the always-safe class (letters, digits, `_.-~`). -/
def quote (s : Str) : Str :=
  s.flatMap fun c =>
    if c.isAlphanum || c = '_' || c = '.' || c = '-' || c = '~' then [c]
    else (utf8Bytes c).flatMap fun b => ['%', hexDigit (b / 16), hexDigit (b % 16)]

/-- `build_badge_md(name, owner, repo)`. -/
def build_badge_md (name owner repo : Str) : Str :=
  let encoded := quote name
  let img := "https://img.shields.io/static/v1?label=&message=".data ++ encoded ++
    "&color=000605&logo=github&logoColor=FFFFFF&labelColor=000605".data
  let href := "https://github.com/".data ++ owner ++ "/".data ++ repo
  "[![".data ++ name ++ "](".data ++ img ++ ")](".data ++ href ++ ")".data

/- ### The entry-processing loop (step 4 of main) -/
inductive LogEvent where
  | warnIncomplete (idx : Nat)
  | warnUnmapped (lang : Str)
  | warnNoMarkers
  | warnNoPat
  | errGetHttp (code : Nat)
  | errGetTransport
  | infoCreated (owner repo : Str)
  | warnCreateFailed (owner repo : Str)
  | infoUpdated
  | infoNoChanges
  deriving DecidableEq

/-- The mutable state of the entry loop: `badges_by_key` and `seen_by_key`
(insertion-ordered dicts, the set of seen repos modelled as a list used only
through membership) and the `repos_needed` list. -/
structure LoopState where
  badges_by_key : List (Str × List Str)
  seen_by_key : List (Str × List JValue)
  repos_needed : List (Str × JValue)
  log : List LogEvent

def setAssoc {α : Type} : List (Str × α) → Str → α → List (Str × α)
  | [], k, v => [(k, v)]
  | (k', v') :: rest, k, v =>
    if k' = k then (k, v) :: rest else (k', v') :: setAssoc rest k v

/-- `badges_by_key.get(key, [])`. -/
def badgesFor (st : LoopState) (k : Str) : List Str :=
  (lookupAssoc st.badges_by_key k).getD []

/-- The repo set seen for a key (empty when the key was never initialized). -/
def seenFor (st : LoopState) (k : Str) : List JValue :=
  (lookupAssoc st.seen_by_key k).getD []

/-- One iteration of the entry loop.  A non-object element raises
(`item.get` is an `AttributeError`), modelled as `.error`.  An entry with a
missing or falsy `name`/`language`/`repo` is skipped with a warning; an
entry whose language is unmapped is skipped with a warning; otherwise the
membership test `repo not in seen_by_key[key]` raises `TypeError` when the
repo value is unhashable (a list or dict), also `.error`; else the badge is
appended unless the repo was already seen for the key, and the repo
reference is always appended to `repos_needed`. -/
def processItem (owner : Str) (idx : Nat) (st : LoopState) (item : JValue) :
    Except Unit LoopState :=
  match item with
  | .jobj fields =>
    let name := getField fields "name".data
    let lang := getField fields "language".data
    let repo := getField fields "repo".data
    if !(truthyOpt name && truthyOpt lang && truthyOpt repo) then
      .ok { st with log := st.log ++ [.warnIncomplete idx] }
    else
      match normalize_language (lang.getD .jnull) with
      | none =>
        .ok { st with log := st.log ++ [.warnUnmapped (pyStr (lang.getD .jnull))] }
      | some nk =>
        let key := nk.2
        let repoV := repo.getD .jnull
        let badge := build_badge_md (pyStr (name.getD .jnull)) owner (pyStr repoV)
        if unhashable repoV then .error ()
        else
          let st1 :=
            if (seenFor st key).any (fun x => jeq x repoV) then st
            else { st with
              badges_by_key := setAssoc st.badges_by_key key (badgesFor st key ++ [badge]),
              seen_by_key := setAssoc st.seen_by_key key (repoV :: seenFor st key) }
          .ok { st1 with repos_needed := st1.repos_needed ++ [(owner, repoV)] }
  | _ => .error ()

/-- An element on which the loop body raises: a non-object (`item.get`,
`AttributeError`) or a complete entry with a mapped language whose repo
value is unhashable (`repo not in seen_by_key[key]`, `TypeError`). -/
def itemCrashes (item : JValue) : Bool :=
  match item with
  | .jobj fields =>
    truthyOpt (getField fields "name".data) &&
    truthyOpt (getField fields "language".data) &&
    truthyOpt (getField fields "repo".data) &&
    (normalize_language ((getField fields "language".data).getD .jnull)).isSome &&
    unhashable ((getField fields "repo".data).getD .jnull)
  | _ => true

def processEntriesGo (owner : Str) : Nat → LoopState → List JValue → Except Unit LoopState
  | _, st, [] => .ok st
  | idx, st, item :: rest =>
    match processItem owner idx st item with
    | .error e => .error e
    | .ok st1 => processEntriesGo owner (idx + 1) st1 rest

def initLoopState : LoopState := ⟨[], [], [], []⟩

/-- The whole entry loop (`for idx, item in enumerate(data, 1)`). -/
def processEntries (owner : Str) (items : List JValue) : Except Unit LoopState :=
  processEntriesGo owner 1 initLoopState items

/- ### The GitHub requests and the reconciliation loop (step 5 of main) -/
/-- Outcome of `urlopen` on the existence GET request: a delivered response
with its status, an `HTTPError` with its code, or a `URLError`.  By the
urllib contract a delivered response always has a 2xx status; theorems state
that contract as a hypothesis where it matters. -/
inductive GetOutcome where
  | success (status : Nat)
  | httpError (code : Nat)
  | transportError
  deriving DecidableEq

/-- Outcome of `urlopen` on the creation POST request. -/
inductive PostOutcome where
  | success (status : Nat)
  | httpError (code : Nat)
  | transportError
  deriving DecidableEq

/-- `github_repo_exists`: True on a 2xx response, False on HTTP 404, raise
(modelled as `.error`) on any other HTTP error or transport error. -/
def github_repo_exists (o : GetOutcome) : Except Unit Bool :=
  match o with
  | .success s => .ok (decide (200 ≤ s ∧ s < 300))
  | .httpError c => if c = 404 then .ok false else .error ()
  | .transportError => .error ()

/-- The stderr lines `github_repo_exists` emits before raising. -/
def getLog (o : GetOutcome) : List LogEvent :=
  match o with
  | .success _ => []
  | .httpError c => if c = 404 then [] else [.errGetHttp c]
  | .transportError => [.errGetTransport]

/-- `github_create_repo`: True on a 2xx response; False on any HTTP error
(422 is a warning, the rest are logged errors) or transport error. -/
def github_create_repo (o : PostOutcome) : Bool :=
  match o with
  | .success s => decide (200 ≤ s ∧ s < 300)
  | .httpError _ => false
  | .transportError => false

structure RecResult where
  gets : List (Str × Str)
  creates : List (Str × Str)
  log : List LogEvent

/-- The loop body of step 5: for each (owner, repo) in order, issue the
existence GET; on an exception continue with the next repository; on a
missing repo issue the creation POST and log the result.  Request outcomes
are drawn from the oracles indexed by loop position. -/
def reconcileLoop (getO : Nat → GetOutcome) (postO : Nat → PostOutcome) :
    Nat → List (Str × JValue) → RecResult
  | _, [] => ⟨[], [], []⟩
  | i, (own, repo) :: rest =>
    let repoS := pyStr repo
    let tail := reconcileLoop getO postO (i + 1) rest
    match github_repo_exists (getO i) with
    | .error _ =>
      { gets := (own, repoS) :: tail.gets, creates := tail.creates,
        log := getLog (getO i) ++ tail.log }
    | .ok true =>
      { gets := (own, repoS) :: tail.gets, creates := tail.creates, log := tail.log }
    | .ok false =>
      { gets := (own, repoS) :: tail.gets,
        creates := (own, repoS) :: tail.creates,
        log := getLog (getO i) ++
          (if github_create_repo (postO i) then [.infoCreated own repoS]
           else [.warnCreateFailed own repoS]) ++ tail.log }

/-- Step 5 of main: nothing happens when no repos are referenced; without a
credential the step is skipped with a warning; otherwise the loop runs. -/
def reconcile (pat : Str) (getO : Nat → GetOutcome) (postO : Nat → PostOutcome)
    (repos : List (Str × JValue)) : RecResult :=
  if repos.isEmpty then ⟨[], [], []⟩
  else if pat.isEmpty then ⟨[], [], [.warnNoPat]⟩
  else reconcileLoop getO postO 0 repos

/- ### The orchestrator (main) -/
/-- `" ".join(badges)`. -/
def joinSpace : List Str → Str
  | [] => []
  | [b] => b
  | b :: rest => b ++ " ".data ++ joinSpace rest

/-- Step 6 of main: for every key of the scanned set, replace its region
with the given content; an exception raised by `pattern.sub` (bad escape in
the content) aborts the loop. -/
def updateAll (doc : Str) (ks : List Str) (content : Str → Str) : Except Unit Str :=
  ks.foldlM (fun d k => replace_between_markers d k (content k)) doc

inductive ExitKind where
  | normal
  | fatal
  | crash
  deriving DecidableEq

/-- Process exit status: 0 on normal completion, 1 for `sys.exit(1)`, 1 for
an uncaught exception. -/
def exitCode : ExitKind → Nat
  | .normal => 0
  | .fatal => 1
  | .crash => 1

/-- The process environment: `projectsFile` is `none` when projects.json is
absent, `some none` when it is not valid JSON, `some (some v)` when it
parses to `v`; `readmeFile` is the README content when present; `ghPat` is
the stripped GH_PAT (empty = unset); the oracles give the outcome of the
i-th GET and POST request. -/
structure Env where
  projectsFile : Option (Option JValue)
  readmeFile : Option Str
  ghOwner : Str
  ghPat : Str
  getO : Nat → GetOutcome
  postO : Nat → PostOutcome

structure MainResult where
  exit : ExitKind
  finalReadme : Option Str
  gets : List (Str × Str)
  creates : List (Str × Str)
  log : List LogEvent

def fatalResult : MainResult :=
  { exit := .fatal, finalReadme := none, gets := [], creates := [], log := [] }

/-- The orchestrator `main()`: load projects.json (absent, malformed or
non-list input is fatal), read README (absent is fatal), scan marker keys,
run the entry loop (a non-object element or an unhashable truthy repo value
is an uncaught exception), run the reconciliation step, inject badges for
every scanned key (a bad template escape in badge content is an uncaught
exception, after the requests were already issued), and report a write only
when the text changed. -/
def main (env : Env) : MainResult :=
  match env.projectsFile with
  | none => fatalResult
  | some none => fatalResult
  | some (some data) =>
    match data with
    | .jarr items =>
      match env.readmeFile with
      | none => fatalResult
      | some readme =>
        let keys := collect_readme_marker_keys readme
        let log0 : List LogEvent := if keys.isEmpty then [.warnNoMarkers] else []
        match processEntries env.ghOwner items with
        | .error _ =>
          { exit := .crash, finalReadme := none, gets := [], creates := [], log := log0 }
        | .ok st =>
          let rr := reconcile env.ghPat env.getO env.postO st.repos_needed
          match updateAll readme keys (fun k => joinSpace (badgesFor st k)) with
          | .error _ =>
            { exit := .crash, finalReadme := none, gets := rr.gets,
              creates := rr.creates, log := log0 ++ st.log ++ rr.log }
          | .ok newReadme =>
            { exit := .normal,
              finalReadme := if newReadme = readme then none else some newReadme,
              gets := rr.gets, creates := rr.creates,
              log := log0 ++ st.log ++ rr.log ++
                [if newReadme = readme then .infoNoChanges else .infoUpdated] }
    | _ => fatalResult

/- ### Shape predicates and per-entry summaries -/
def isObj : JValue → Bool
  | .jobj _ => true
  | _ => false

def isArr : JValue → Bool
  | .jarr _ => true
  | _ => false

/-- The repo value contributed to `repos_needed` by an entry, when the entry
is a complete object with a mapped language. -/
def entryRepo (item : JValue) : Option JValue :=
  match item with
  | .jobj fields =>
    let name := getField fields "name".data
    let lang := getField fields "language".data
    let repo := getField fields "repo".data
    if truthyOpt name && truthyOpt lang && truthyOpt repo then
      match normalize_language (lang.getD .jnull) with
      | some _ => some (repo.getD .jnull)
      | none => none
    else none
  | _ => none

/-- A valid entry as it contributes to a badge group: its repo value and its
rendered badge. -/
structure VEntry where
  repoV : JValue
  badge : Str

/-- The marker key and badge data of an entry, when the entry is a complete
object with a mapped language. -/
def entryData (owner : Str) (item : JValue) : Option (Str × VEntry) :=
  match item with
  | .jobj fields =>
    let name := getField fields "name".data
    let lang := getField fields "language".data
    let repo := getField fields "repo".data
    if truthyOpt name && truthyOpt lang && truthyOpt repo then
      match normalize_language (lang.getD .jnull) with
      | some nk =>
        some (nk.2, ⟨repo.getD .jnull,
          build_badge_md (pyStr (name.getD .jnull)) owner (pyStr (repo.getD .jnull))⟩)
      | none => none
    else none
  | _ => none

/-- The valid entries of the input that normalize to marker key `k`, in
input order. -/
def validFor (owner k : Str) (items : List JValue) : List VEntry :=
  items.filterMap fun it =>
    match entryData owner it with
    | some kv => if kv.1 = k then some kv.2 else none
    | none => none

/-- Keep, per repo value, only the first entry (Python `==` membership in
the seen set), preserving order. -/
def firstByRepoAux : List VEntry → List JValue → List VEntry
  | [], _ => []
  | e :: rest, seen =>
    if seen.any (fun x => jeq x e.repoV) then firstByRepoAux rest seen
    else e :: firstByRepoAux rest (e.repoV :: seen)

def firstByRepo (l : List VEntry) : List VEntry := firstByRepoAux l []

def env9 : Env :=
  { projectsFile := some (some (.jarr [.jstr "x".data])),
    readmeFile := some "hello".data,
    ghOwner := "o".data, ghPat := [],
    getO := fun _ => .transportError, postO := fun _ => .transportError }

def fields10 : List (Str × JValue) :=
  [("name".data, .jstr "A".data), ("language".data, .jstr "python".data),
   ("repo".data, .jnum 0)]

def env2 : Env :=
  { projectsFile := some (some (.jarr [])),
    readmeFile := none,
    ghOwner := "o".data, ghPat := [],
    getO := fun _ => .transportError, postO := fun _ => .transportError }

def wGetO : Nat → GetOutcome := fun _ => .transportError

def wPostO : Nat → PostOutcome := fun _ => .transportError

def env8 : Env :=
  { projectsFile := some (some (.jarr
      [.jobj [("name".data, .jstr "A".data), ("language".data, .jstr "c".data),
              ("repo".data, .jstr "r".data)]])),
    readmeFile := some "no markers here".data,
    ghOwner := "o".data, ghPat := [],
    getO := wGetO, postO := wPostO }

def items3 : List JValue :=
  [.jobj [("name".data, .jstr "A".data), ("language".data, .jstr "c".data),
          ("repo".data, .jstr "r".data)],
   .jobj [("name".data, .jstr "B".data), ("language".data, .jstr "python".data),
          ("repo".data, .jstr "r".data)]]

def env3 : Env :=
  { projectsFile := some (some (.jarr items3)),
    readmeFile := some [],
    ghOwner := "o".data, ghPat := "t".data,
    getO := wGetO, postO := wPostO }

def st3 : LoopState := (processEntries "o".data items3).toOption.getD initLoopState

/-- Two complete entries for one key whose repo values `1` and `true` are
equal under Python `==`: the seen set merges them. -/
def items6 : List JValue :=
  [.jobj [("name".data, .jstr "A".data), ("language".data, .jstr "c".data),
          ("repo".data, .jnum 1)],
   .jobj [("name".data, .jstr "B".data), ("language".data, .jstr "c".data),
          ("repo".data, .jbool true)]]

def st6 : LoopState := (processEntries "o".data items6).toOption.getD initLoopState

/-- Two complete entries with the same list-valued repo: the membership
test raises `TypeError` on the first one. -/
def items6ce : List JValue :=
  [.jobj [("name".data, .jstr "A".data), ("language".data, .jstr "c".data),
          ("repo".data, .jarr [.jstr "x".data])],
   .jobj [("name".data, .jstr "B".data), ("language".data, .jstr "c".data),
          ("repo".data, .jarr [.jstr "x".data])]]

def env6ce : Env :=
  { projectsFile := some (some (.jarr items6ce)),
    readmeFile := some "d".data,
    ghOwner := "o".data, ghPat := [],
    getO := wGetO, postO := wPostO }

/- ### C1: canonical documents, their scan and their update -/
/-- A text with no `<` character: sentinels cannot start inside it. -/
def ltFree (x : Str) : Prop := '<' ∉ x

/-- A text with no backslash: as a replacement template it expands to
itself. -/
def bsFree (x : Str) : Prop := '\\' ∉ x

/-- A marker key as the scanner can produce it: nonempty, over
`[A-Za-z0-9+-]`. -/
def goodKey (k : Str) : Prop := k ≠ [] ∧ ∀ c ∈ k, isKeyChar c = true

/-- One marker region of a canonical document: its key, its inner text and
the plain text following it. -/
structure Part where
  key : Str
  inner : Str
  seg : Str

/-- A canonical document: plain text, then for each part the exact
single-space sentinel pair around its inner text followed by plain text. -/
def assemble : Str → List Part → Str
  | seg0, [] => seg0
  | seg0, p :: ps => seg0 ++ startM p.key ++ p.inner ++ endM p.key ++ assemble p.seg ps

/-- Well-formedness of a canonical document: plain segments and inner texts
hold no `<`, keys are good and pairwise distinct. -/
def WF (seg0 : Str) (ps : List Part) : Prop :=
  ltFree seg0 ∧ (ps.map Part.key).Nodup ∧
    ∀ p ∈ ps, goodKey p.key ∧ ltFree p.inner ∧ ltFree p.seg

/-- Replace the inner text of the first part carrying the key. -/
def updFirst (k c : Str) : List Part → List Part
  | [] => []
  | p :: ps => if p.key = k then { p with inner := c } :: ps else p :: updFirst k c ps

/-- Replace the inner text of every part whose key lies in `T`. -/
def mapUpdOn (content : Str → Str) (T : List Str) (ps : List Part) : List Part :=
  ps.map fun p => if p.key ∈ T then { p with inner := content p.key } else p

/-- `Skips sep B`: searching for `sep` never matches inside `B` nor
overlapping its end, for any continuation. -/
def Skips (sep B : Str) : Prop :=
  ∀ X, splitAtFirst sep (B ++ X) = (splitAtFirst sep X).map fun p => (B ++ p.1, p.2)

/- ### Basic facts about splitAtFirst -/
theorem splitAtFirst_sound {sep t pre post : Str}
    (h : splitAtFirst sep t = some (pre, post)) : t = pre ++ sep ++ post := by
  induction t generalizing pre post with
  | nil =>
    by_cases hsep : sep.isPrefixOf ([] : Str)
    · simp only [splitAtFirst, hsep, if_true, Option.some.injEq, Prod.mk.injEq] at h
      have hs : sep = [] := List.prefix_nil.mp ((List.isPrefixOf_iff_prefix).mp hsep)
      simp [← h.1, ← h.2, hs]
    · simp [splitAtFirst, hsep] at h
  | cons c rest ih =>
    by_cases hp : sep.isPrefixOf (c :: rest)
    · simp only [splitAtFirst, hp, if_true, Option.some.injEq, Prod.mk.injEq] at h
      obtain ⟨h1, h2⟩ := h
      have hpre : sep <+: (c :: rest) := (List.isPrefixOf_iff_prefix).mp hp
      obtain ⟨tail, htail⟩ := hpre
      subst h1
      simp only [List.nil_append]
      rw [← htail, ← h2, ← htail]
      simp [List.drop_left]
    · cases hsplit : splitAtFirst sep rest with
      | none => simp [splitAtFirst, hp, hsplit] at h
      | some pr =>
        obtain ⟨p1, p2⟩ := pr
        have hcomp : splitAtFirst sep (c :: rest) = some (c :: p1, p2) := by
          simp [splitAtFirst, hp, hsplit]
        have hps : some ((c : Char) :: p1, p2) = some (pre, post) := hcomp.symm.trans h
        simp only [Option.some.injEq, Prod.mk.injEq] at hps
        obtain ⟨h1, h2⟩ := hps
        rw [← h1, ← h2]
        simpa using congrArg (c :: ·) (ih hsplit)

theorem splitAtFirst_self (sep X : Str) : splitAtFirst sep (sep ++ X) = some ([], X) := by
  have hp : sep.isPrefixOf (sep ++ X) = true :=
    (List.isPrefixOf_iff_prefix).mpr ⟨X, rfl⟩
  cases hsx : sep ++ X with
  | nil =>
    have hs : sep = [] := by cases sep <;> simp_all
    have hx : X = [] := by cases X <;> simp_all
    subst hs; subst hx; simp [splitAtFirst]
  | cons c rest =>
    rw [← hsx]
    cases hs : sep with
    | nil =>
      subst hs
      cases X with
      | nil => simp [splitAtFirst]
      | cons y ys => simp [splitAtFirst, List.isPrefixOf]
    | cons s ss =>
      rw [← hs, hsx, splitAtFirst]
      rw [← hsx, hp]
      simp [List.drop_left]

/-- A prefix test only looks at the first `sep.length` characters, so it is
unchanged when text beyond them changes. -/
theorem prefix_stable {sep u : Str} (h : sep.length ≤ u.length) (v w : Str) :
    (sep <+: u ++ v) ↔ (sep <+: u ++ w) := by
  have key : ∀ z : Str, (sep <+: u ++ z) ↔ sep = u.take sep.length := by
    intro z
    rw [List.prefix_iff_eq_take, List.take_append_of_le_length h]
  rw [key v, key w]

/-- Stability of the leftmost split: if the first occurrence of `sep` in `t`
splits it as `pre ++ sep ++ post`, then replacing the part after that
occurrence by anything keeps the split at the same place. -/
theorem splitAtFirst_stable {sep t pre post : Str} (hsep : sep ≠ [])
    (h : splitAtFirst sep t = some (pre, post)) (Y : Str) :
    splitAtFirst sep (pre ++ sep ++ Y) = some (pre, Y) := by
  induction t generalizing pre post with
  | nil =>
    exfalso
    obtain ⟨s, ss, rfl⟩ : ∃ s ss, sep = s :: ss := by
      cases sep with
      | nil => exact absurd rfl hsep
      | cons s ss => exact ⟨s, ss, rfl⟩
    simp [splitAtFirst, List.isPrefixOf] at h
  | cons c rest ih =>
    by_cases hp : sep.isPrefixOf (c :: rest)
    · simp only [splitAtFirst, hp, if_true, Option.some.injEq, Prod.mk.injEq] at h
      obtain ⟨h1, _⟩ := h
      subst h1
      simpa using splitAtFirst_self sep Y
    · cases hsplit : splitAtFirst sep rest with
      | none => simp [splitAtFirst, hp, hsplit] at h
      | some pr =>
      obtain ⟨p1, p2⟩ := pr
      have hcomp : splitAtFirst sep (c :: rest) = some (c :: p1, p2) := by
        simp [splitAtFirst, hp, hsplit]
      have hps : some ((c : Char) :: p1, p2) = some (pre, post) := hcomp.symm.trans h
      simp only [Option.some.injEq, Prod.mk.injEq] at hps
      obtain ⟨h1, h2⟩ := hps
      have hrest : rest = p1 ++ sep ++ p2 := splitAtFirst_sound hsplit
      have hlen : sep.length ≤ (c :: (p1 ++ sep)).length := by
        simp [List.length_append]; omega
      have hnp : ¬ sep.isPrefixOf (c :: (p1 ++ sep ++ Y)) := by
        intro hcon
        apply hp
        have hcon' : sep <+: ((c :: (p1 ++ sep)) ++ Y) := by
          apply (List.isPrefixOf_iff_prefix).mp
          simpa using hcon
        have hpost : sep <+: ((c :: (p1 ++ sep)) ++ p2) :=
          (prefix_stable hlen Y p2).mp hcon'
        apply (List.isPrefixOf_iff_prefix).mpr
        rw [hrest]
        simpa using hpost
      rw [← h1]
      have hshape : (c :: p1) ++ sep ++ Y = c :: (p1 ++ sep ++ Y) := by simp
      rw [hshape, splitAtFirst]
      have hihY := ih hsplit
      have hnp2 : ¬ (sep <+: (c :: (p1 ++ (sep ++ Y)))) := by
        intro hcon
        exact hnp ((List.isPrefixOf_iff_prefix).mpr (by simpa using hcon))
      rw [if_neg hnp, hihY]
      rfl

theorem startM_ne (k : Str) : startM k ≠ [] := by simp [startM]

theorem endM_ne (k : Str) : endM k ≠ [] := by simp [endM]

theorem findRegion_sound {text k pre inner post : Str}
    (h : findRegion text k = some (pre, inner, post)) :
    text = pre ++ startM k ++ inner ++ endM k ++ post := by
  cases hs : splitAtFirst (startM k) text with
  | none =>
    have : findRegion text k = none := by simp [findRegion, hs]
    rw [this] at h
    exact absurd h (by simp)
  | some pr =>
    obtain ⟨p, rest⟩ := pr
    cases he : splitAtFirst (endM k) rest with
    | none =>
      have : findRegion text k = none := by simp [findRegion, hs, he]
      rw [this] at h
      exact absurd h (by simp)
    | some pr2 =>
      obtain ⟨i, q⟩ := pr2
      have hfr : findRegion text k = some (p, i, q) := by simp [findRegion, hs, he]
      have hps : some (p, i, q) = some (pre, inner, post) := hfr.symm.trans h
      simp only [Option.some.injEq, Prod.mk.injEq] at hps
      obtain ⟨h1, h2, h3⟩ := hps
      have ht : text = p ++ startM k ++ rest := splitAtFirst_sound hs
      have hr : rest = i ++ endM k ++ q := splitAtFirst_sound he
      rw [← h1, ← h2, ← h3, ht, hr]
      simp [List.append_assoc]

theorem expand_noBS (groups : List Str) :
    ∀ (fuel : Nat) (t : Str), t.length ≤ fuel → '\\' ∉ t →
      expandTemplAux groups fuel t = .ok t := by
  intro fuel
  induction fuel with
  | zero =>
    intro t hlen _
    have ht : t = [] := List.eq_nil_of_length_eq_zero (Nat.le_zero.mp hlen)
    subst ht
    rfl
  | succ fuel ih =>
    intro t hlen hbs
    cases t with
    | nil => rfl
    | cons c rest =>
      have hc : c ≠ '\\' := fun hh => hbs (by simp [hh])
      have hrest : '\\' ∉ rest := fun hm => hbs (by simp [hm])
      simp only [List.length_cons] at hlen
      simp only [expandTemplAux, if_pos hc]
      rw [ih rest (by omega) hrest]
      rfl

theorem expandTemplate_noBS (groups : List Str) {t : Str} (hbs : '\\' ∉ t) :
    expandTemplate groups t = .ok t :=
  expand_noBS groups t.length t (le_refl _) hbs

theorem startM_bsFree {k : Str} (hk : '\\' ∉ k) : '\\' ∉ startM k := by
  intro hm
  rw [startM] at hm
  rcases List.mem_append.mp hm with hm | hm
  · rcases List.mem_append.mp hm with hm | hm
    · revert hm; decide
    · exact hk hm
  · revert hm; decide

theorem endM_bsFree {k : Str} (hk : '\\' ∉ k) : '\\' ∉ endM k := by
  intro hm
  rw [endM] at hm
  rcases List.mem_append.mp hm with hm | hm
  · rcases List.mem_append.mp hm with hm | hm
    · revert hm; decide
    · exact hk hm
  · revert hm; decide

/-- When neither the key nor the content holds a backslash, the replacement
template expands to itself and `pattern.sub` is the literal splice. -/
theorem replace_ok {k c : Str} (hk : '\\' ∉ k) (hc : '\\' ∉ c) (t : Str) :
    replace_between_markers t k c = .ok (spliceFirst t k c) := by
  cases hfr : findRegion t k with
  | none => simp [replace_between_markers, spliceFirst, hfr]
  | some pr =>
    obtain ⟨pre, pr2⟩ := pr
    obtain ⟨inner, post⟩ := pr2
    have hbs : '\\' ∉ (startM k ++ c ++ endM k : Str) := by
      intro hm
      rcases List.mem_append.mp hm with hm | hm
      · rcases List.mem_append.mp hm with hm | hm
        · exact startM_bsFree hk hm
        · exact hc hm
      · exact endM_bsFree hk hm
    have hexp := expandTemplate_noBS [startM k ++ inner ++ endM k, inner] hbs
    simp only [replace_between_markers, spliceFirst, hfr]
    rw [hexp]
    simp [List.append_assoc]

/-- C4 (amended): for template-free content — no backslash in the content
or the marker key — the replace operation inserts no line breaks of its
own: when no sentinel pair is found the document is returned unchanged, and
when a pair is found the replacement succeeds and the number of line breaks
of the result differs from that of the input exactly by the line breaks of
the supplied content minus those of the replaced inner text.  In particular
the total line count is preserved exactly when neither the content nor the
replaced inner text holds a line break — not in general (see the
counterexample) — and content with backslashes is expanded as a replacement
template rather than spliced literally (a backreference re-inserts the old
inner text with its line breaks; a bad escape raises). -/
theorem claim_C4 (text k c : Str) (hk : '\\' ∉ k) (hc : '\\' ∉ c) :
    (findRegion text k = none → replace_between_markers text k c = .ok text) ∧
    (∀ pre inner post, findRegion text k = some (pre, inner, post) →
      ∃ r, replace_between_markers text k c = .ok r ∧
        countNL r + countNL inner = countNL text + countNL c) := by
  constructor
  · intro h
    simp [replace_between_markers, h]
  · intro pre inner post h
    refine ⟨spliceFirst text k c, replace_ok hk hc text, ?_⟩
    have ht := findRegion_sound h
    have hr : spliceFirst text k c =
        pre ++ startM k ++ c ++ endM k ++ post := by
      simp [spliceFirst, h]
    rw [hr, ht]
    simp only [countNL, List.count_append]
    omega

/-- C4 as stated is false: clearing a region whose inner text holds a line
break shrinks the document from two lines to one. -/
theorem claim_C4_counterexample :
    (replace_between_markers ceDoc4 ("c".data) ([] : Str)).toOption.map lineCount =
      some 1 ∧ lineCount ceDoc4 = 2 := by
  refine ⟨by decide, by decide⟩

theorem claim_C4_witness :
    ∃ r, replace_between_markers w4doc ("k".data) ("z".data) = .ok r ∧
      countNL r + countNL ("x\ny".data) = countNL w4doc + countNL ("z".data) :=
  (claim_C4 w4doc ("k".data) ("z".data) (by decide) (by decide)).2
    ("A".data) ("x\ny".data) ("B".data) (by decide)

/-- C5 (amended): for template-free content — no backslash in the content
or the marker key — the replace operation is idempotent for every document
and marker key, provided the end sentinel for the key occurs in
content-followed-by-end-sentinel only as its final suffix (in particular
for every content string that does not contain or overlap the end
sentinel): the replacement succeeds and replacing again returns the same
document.  Without the suffix proviso the claim fails (see the
counterexample), and content with backslashes is template-expanded, which
also breaks idempotence (a backreference doubles material on each
application). -/
theorem claim_C5 (doc k c : Str) (hk : '\\' ∉ k) (hc : '\\' ∉ c)
    (h : splitAtFirst (endM k) (c ++ endM k) = some (c, [])) :
    ∃ d1, replace_between_markers doc k c = .ok d1 ∧
      replace_between_markers d1 k c = .ok d1 := by
  refine ⟨spliceFirst doc k c, replace_ok hk hc doc, ?_⟩
  rw [replace_ok hk hc (spliceFirst doc k c)]
  congr 1
  cases hs : splitAtFirst (startM k) doc with
  | none => simp [spliceFirst, findRegion, hs]
  | some pr =>
    obtain ⟨pre, rest⟩ := pr
    cases he : splitAtFirst (endM k) rest with
    | none => simp [spliceFirst, findRegion, hs, he]
    | some pr2 =>
      obtain ⟨inner, post⟩ := pr2
      have h1 : spliceFirst doc k c =
          pre ++ startM k ++ c ++ endM k ++ post := by
        simp [spliceFirst, findRegion, hs, he]
      rw [h1]
      have hS := splitAtFirst_stable (startM_ne k) hs (c ++ endM k ++ post)
      have hE := splitAtFirst_stable (endM_ne k) h post
      simp only [List.append_nil] at hE
      simp only [List.append_assoc] at hS hE ⊢
      simp [spliceFirst, findRegion, hS, hE]

/-- C5 as stated is false: when the content itself contains the end
sentinel, a second application of replace duplicates material. -/
theorem claim_C5_counterexample :
    ((replace_between_markers ceDoc5 ("c".data) ceContent5).toOption.bind
        fun d => (replace_between_markers d ("c".data) ceContent5).toOption) ≠
      (replace_between_markers ceDoc5 ("c".data) ceContent5).toOption := by
  decide

theorem claim_C5_witness :
    ∃ d1, replace_between_markers w5doc ("python".data) w5c = .ok d1 ∧
      replace_between_markers d1 ("python".data) w5c = .ok d1 :=
  claim_C5 w5doc ("python".data) w5c (by decide) (by decide) (by decide)

/- ### jeq is equality of numeric canonical forms -/
theorem jeqList_canon_of (xs ys : List JValue)
    (H : ∀ x ∈ xs, ∀ b, jeq x b = true ↔ canon x = canon b) :
    (jeqList xs ys = true ↔ canonList xs = canonList ys) := by
  induction xs generalizing ys with
  | nil => cases ys <;> simp [jeqList, canonList]
  | cons x xs ih =>
    cases ys with
    | nil => simp [jeqList, canonList]
    | cons y ys =>
      have hx := H x (by simp)
      have hrest : ∀ z ∈ xs, ∀ b, jeq z b = true ↔ canon z = canon b :=
        fun z hz => H z (by simp [hz])
      simp [jeqList, canonList, hx, ih ys hrest]

theorem jeqFields_canon_of (xs ys : List (Str × JValue))
    (H : ∀ x ∈ xs, ∀ b, jeq x.2 b = true ↔ canon x.2 = canon b) :
    (jeqFields xs ys = true ↔ canonFields xs = canonFields ys) := by
  induction xs generalizing ys with
  | nil => cases ys <;> simp [jeqFields, canonFields]
  | cons x xs ih =>
    obtain ⟨k1, v1⟩ := x
    cases ys with
    | nil => simp [jeqFields, canonFields]
    | cons y ys =>
      obtain ⟨k2, v2⟩ := y
      have hx := H (k1, v1) (by simp)
      have hrest : ∀ z ∈ xs, ∀ b, jeq z.2 b = true ↔ canon z.2 = canon b :=
        fun z hz => H z (by simp [hz])
      simp only [jeqFields, canonFields, Bool.and_eq_true, List.cons.injEq,
        Prod.mk.injEq, beq_iff_eq, ih ys hrest, hx]

theorem jeq_canon_fuel : ∀ (n : Nat) (a b : JValue), sizeOf a < n →
    (jeq a b = true ↔ canon a = canon b) := by
  intro n
  induction n with
  | zero => intro a b h; omega
  | succ n ih =>
    intro a b h
    cases a with
    | jnull => cases b <;> simp [jeq, canon]
    | jbool x =>
      cases b with
      | jnull => simp [jeq, canon]
      | jbool y => cases x <;> cases y <;> simp [jeq, canon]
      | jnum m => cases x <;> simp [jeq, canon]
      | jstr s => simp [jeq, canon]
      | jarr ys => simp [jeq, canon]
      | jobj ys => simp [jeq, canon]
    | jnum v =>
      cases b with
      | jnull => simp [jeq, canon]
      | jbool y => cases y <;> simp [jeq, canon]
      | jnum m => simp [jeq, canon]
      | jstr s => simp [jeq, canon]
      | jarr ys => simp [jeq, canon]
      | jobj ys => simp [jeq, canon]
    | jstr s =>
      cases b <;> simp [jeq, canon]
    | jarr xs =>
      cases b with
      | jnull => simp [jeq, canon]
      | jbool y => simp [jeq, canon]
      | jnum y => simp [jeq, canon]
      | jstr y => simp [jeq, canon]
      | jobj ys => simp [jeq, canon]
      | jarr ys =>
        simp only [jeq, canon, JValue.jarr.injEq]
        apply jeqList_canon_of
        intro x hx b
        apply ih
        have h1 : sizeOf x < sizeOf xs := List.sizeOf_lt_of_mem hx
        have h2 : sizeOf (JValue.jarr xs) = 1 + sizeOf xs := by simp
        omega
    | jobj fs =>
      cases b with
      | jnull => simp [jeq, canon]
      | jbool y => simp [jeq, canon]
      | jnum y => simp [jeq, canon]
      | jstr y => simp [jeq, canon]
      | jarr ys => simp [jeq, canon]
      | jobj ys =>
        simp only [jeq, canon, JValue.jobj.injEq]
        apply jeqFields_canon_of
        intro x hx b
        apply ih
        have h1 : sizeOf x < sizeOf fs := List.sizeOf_lt_of_mem hx
        have h2 : sizeOf x = 1 + sizeOf x.1 + sizeOf x.2 := by
          obtain ⟨x1, x2⟩ := x
          simp
        have h3 : sizeOf (JValue.jobj fs) = 1 + sizeOf fs := by simp
        omega

/-- Python `==` on parsed JSON values holds exactly when the numeric
canonical forms coincide (`True == 1`, `False == 0`, containers
elementwise). -/
theorem jeq_canon (a b : JValue) : jeq a b = true ↔ canon a = canon b :=
  jeq_canon_fuel (sizeOf a + 1) a b (by omega)

theorem jeq_refl (a : JValue) : jeq a a = true := (jeq_canon a a).mpr rfl

/-- Values with the same canonical form are indistinguishable under `jeq`
from the left argument's side. -/
theorem jeq_congr {a b : JValue} (h : canon a = canon b) (x : JValue) :
    jeq x a = jeq x b := by
  cases h2 : jeq x b with
  | true => exact (jeq_canon x a).mpr (((jeq_canon x b).mp h2).trans h.symm)
  | false =>
    cases h1 : jeq x a with
    | false => rfl
    | true =>
      exact absurd ((jeq_canon x b).mpr (((jeq_canon x a).mp h1).trans h))
        (by simp [h2])

/- ### The entry loop raises exactly on non-objects and unhashable repos -/
theorem processItem_err {item : JValue} (h : isObj item = false)
    (owner : Str) (idx : Nat) (st : LoopState) :
    processItem owner idx st item = .error () := by
  cases item <;> first | rfl | simp [isObj] at h

theorem itemCrashes_of_nonObj {item : JValue} (h : isObj item = false) :
    itemCrashes item = true := by
  cases item <;> first | rfl | simp [isObj] at h

theorem processItem_crash_iff (owner : Str) (idx : Nat) (st : LoopState)
    (item : JValue) :
    (∃ e, processItem owner idx st item = .error e) ↔ itemCrashes item = true := by
  cases item with
  | jobj fields =>
    by_cases hc : (truthyOpt (getField fields "name".data) &&
        truthyOpt (getField fields "language".data) &&
        truthyOpt (getField fields "repo".data)) = true
    · cases hn : normalize_language ((getField fields "language".data).getD .jnull) with
      | none =>
        apply iff_of_false
        · rintro ⟨e, he⟩
          simp [processItem, hc, hn] at he
        · simp [itemCrashes, hc, hn]
      | some nk =>
        by_cases hunh : unhashable ((getField fields "repo".data).getD .jnull) = true
        · apply iff_of_true
          · exact ⟨(), by simp [processItem, hc, hn, hunh]⟩
          · simp only [itemCrashes, hn, hunh, Option.isSome_some, Bool.and_true]
            simpa using hc
        · apply iff_of_false
          · rintro ⟨e, he⟩
            simp only [processItem, hc, if_true, hn, hunh] at he
            simp at he
          · simp [itemCrashes, hunh]
    · apply iff_of_false
      · rintro ⟨e, he⟩
        simp [processItem, hc] at he
      · have hcf : (truthyOpt (getField fields "name".data) &&
            truthyOpt (getField fields "language".data) &&
            truthyOpt (getField fields "repo".data)) = false := by
          simpa using hc
        simp [itemCrashes, hcf]
  | jnull => exact iff_of_true ⟨(), rfl⟩ rfl
  | jbool b => exact iff_of_true ⟨(), rfl⟩ rfl
  | jnum n => exact iff_of_true ⟨(), rfl⟩ rfl
  | jstr s => exact iff_of_true ⟨(), rfl⟩ rfl
  | jarr xs => exact iff_of_true ⟨(), rfl⟩ rfl

theorem processEntriesGo_err_iff (owner : Str) (idx : Nat) (st : LoopState)
    (items : List JValue) :
    (∃ e, processEntriesGo owner idx st items = .error e) ↔
      ∃ it ∈ items, itemCrashes it = true := by
  induction items generalizing idx st with
  | nil => simp [processEntriesGo]
  | cons item rest ih =>
    cases hcr : itemCrashes item with
    | true =>
      obtain ⟨e, he⟩ := (processItem_crash_iff owner idx st item).mpr hcr
      cases e
      constructor
      · intro _
        exact ⟨item, by simp, hcr⟩
      · intro _
        exact ⟨(), by simp [processEntriesGo, he]⟩
    | false =>
      obtain ⟨st1, hst1⟩ : ∃ st1, processItem owner idx st item = .ok st1 := by
        cases hpi : processItem owner idx st item with
        | ok st2 => exact ⟨st2, rfl⟩
        | error e =>
          have hcon := (processItem_crash_iff owner idx st item).mp ⟨e, hpi⟩
          rw [hcon] at hcr
          simp at hcr
      rw [show processEntriesGo owner idx st (item :: rest) =
        processEntriesGo owner (idx + 1) st1 rest by simp [processEntriesGo, hst1]]
      rw [ih (idx + 1) st1]
      constructor
      · intro hex
        obtain ⟨it, hit, hio⟩ := hex
        exact ⟨it, by simp [hit], hio⟩
      · intro hex
        obtain ⟨it, hit, hio⟩ := hex
        rcases List.mem_cons.mp hit with heq | hmem
        · rw [heq] at hio
          rw [hio] at hcr
          simp at hcr
        · exact ⟨it, hmem, hio⟩

/-- C9: if the parsed input is a list containing a non-object element (and
the document file is present, so that the entry loop is reached), the loop
raises an uncaught exception (`item.get` on a non-dict) and the process
terminates with a non-zero status instead of skipping the element. -/
theorem claim_C9 (env : Env) (items : List JValue) (r : Str)
    (h1 : env.projectsFile = some (some (.jarr items)))
    (h2 : env.readmeFile = some r)
    (h3 : ∃ it ∈ items, isObj it = false) :
    (main env).exit = .crash ∧ exitCode (main env).exit ≠ 0 := by
  obtain ⟨e, he⟩ : ∃ e, processEntries env.ghOwner items = .error e := by
    rw [processEntries]
    refine (processEntriesGo_err_iff env.ghOwner 1 initLoopState items).mpr ?_
    obtain ⟨it, hit, hio⟩ := h3
    exact ⟨it, hit, itemCrashes_of_nonObj hio⟩
  cases e
  constructor
  · simp [main, h1, h2, he]
  · simp [main, h1, h2, he, exitCode]

theorem claim_C9_witness : (main env9).exit = .crash ∧ exitCode (main env9).exit ≠ 0 :=
  claim_C9 env9 [.jstr "x".data] "hello".data rfl rfl ⟨.jstr "x".data, by simp, rfl⟩

/-- C10: an entry whose `name`, `language` or `repo` field is present but
falsy (empty string, 0, false, empty container) is treated exactly like one
with the field missing: the iteration only appends the incompleteness
warning — no badge is added, no repository reference is recorded. -/
theorem claim_C10 (owner : Str) (idx : Nat) (st : LoopState)
    (fields : List (Str × JValue))
    (h : truthyOpt (getField fields "name".data) = false ∨
         truthyOpt (getField fields "language".data) = false ∨
         truthyOpt (getField fields "repo".data) = false) :
    processItem owner idx st (.jobj fields) =
      .ok { st with log := st.log ++ [.warnIncomplete idx] } := by
  have hc : (truthyOpt (getField fields "name".data) &&
      truthyOpt (getField fields "language".data) &&
      truthyOpt (getField fields "repo".data)) = false := by
    rcases h with h | h | h <;> simp [h]
  simp [processItem, hc]

theorem claim_C10_witness :
    processItem "o".data 3 initLoopState (.jobj fields10) =
      .ok { initLoopState with log := initLoopState.log ++ [.warnIncomplete 3] } :=
  claim_C10 "o".data 3 initLoopState fields10 (Or.inr (Or.inr (by rfl)))

/- ### The exit status and the written document ignore the credential and
the network -/
theorem main_indep (env : Env) (pat : Str) (g : Nat → GetOutcome)
    (p : Nat → PostOutcome) :
    (main { env with ghPat := pat, getO := g, postO := p }).exit = (main env).exit ∧
    (main { env with ghPat := pat, getO := g, postO := p }).finalReadme =
      (main env).finalReadme := by
  cases hpf : env.projectsFile with
  | none => simp [main, hpf]
  | some od =>
    cases od with
    | none => simp [main, hpf]
    | some data =>
      cases data with
      | jarr items =>
        cases hrf : env.readmeFile with
        | none => simp [main, hpf, hrf]
        | some readme =>
          cases hpe : processEntries env.ghOwner items with
          | error e => simp [main, hpf, hrf, hpe]
          | ok st =>
            cases hup : updateAll readme (collect_readme_marker_keys readme)
                (fun k => joinSpace (badgesFor st k)) with
            | error e => simp [main, hpf, hrf, hpe, hup]
            | ok nr => simp [main, hpf, hrf, hpe, hup]
      | jnull => simp [main, hpf]
      | jbool b => simp [main, hpf]
      | jnum n => simp [main, hpf]
      | jstr s2 => simp [main, hpf]
      | jobj fs => simp [main, hpf]

/-- C2 (amended): the exit status is non-zero exactly when projects.json is
absent, projects.json is invalid JSON, the parsed data is not a list, the
README document file is absent, the entry loop raises (a list element that
is not an object, or a complete entry with a mapped language whose repo
value is an unhashable list or dict), or the badge-injection step raises
(a bad backslash escape in the joined badge content of some scanned key).
The claim's list of three cases misses the rest; in particular a missing
README — a document-file condition the claim asserts exits 0 — exits 1. -/
theorem claim_C2 (env : Env) :
    exitCode (main env).exit ≠ 0 ↔
      (env.projectsFile = none ∨ env.projectsFile = some none ∨
       (∃ v, env.projectsFile = some (some v) ∧ isArr v = false) ∨
       (∃ items, env.projectsFile = some (some (.jarr items)) ∧ env.readmeFile = none) ∨
       (∃ items r, env.projectsFile = some (some (.jarr items)) ∧
         env.readmeFile = some r ∧ ∃ it ∈ items, itemCrashes it = true) ∨
       (∃ items r st, env.projectsFile = some (some (.jarr items)) ∧
         env.readmeFile = some r ∧ processEntries env.ghOwner items = .ok st ∧
         updateAll r (collect_readme_marker_keys r)
           (fun k => joinSpace (badgesFor st k)) = .error ())) := by
  cases hpf : env.projectsFile with
  | none => simp [main, hpf, fatalResult, exitCode]
  | some od =>
    cases od with
    | none => simp [main, hpf, fatalResult, exitCode]
    | some data =>
      cases data with
      | jarr items =>
        cases hrf : env.readmeFile with
        | none => simp [main, hpf, hrf, fatalResult, exitCode, isArr]
        | some readme =>
          cases hpe : processEntries env.ghOwner items with
          | error e =>
            have hex : ∃ it ∈ items, itemCrashes it = true :=
              (processEntriesGo_err_iff env.ghOwner 1 initLoopState items).mp ⟨e, hpe⟩
            apply iff_of_true
            · simp [main, hpf, hrf, hpe, exitCode]
            · exact Or.inr (Or.inr (Or.inr (Or.inr
                (Or.inl ⟨items, readme, rfl, rfl, hex⟩))))
          | ok st =>
            cases hup : updateAll readme (collect_readme_marker_keys readme)
                (fun k => joinSpace (badgesFor st k)) with
            | error e2 =>
              cases e2
              apply iff_of_true
              · simp [main, hpf, hrf, hpe, hup, exitCode]
              · exact Or.inr (Or.inr (Or.inr (Or.inr
                  (Or.inr ⟨items, readme, st, rfl, rfl, hpe, hup⟩))))
            | ok nr =>
              apply iff_of_false
              · simp [main, hpf, hrf, hpe, hup, exitCode]
              · intro hcon
                rcases hcon with h | h | h | h | h | h
                · simp at h
                · simp at h
                · obtain ⟨v, hv, hva⟩ := h
                  simp only [Option.some.injEq] at hv
                  rw [← hv] at hva
                  simp [isArr] at hva
                · obtain ⟨items2, hi, hr⟩ := h
                  simp at hr
                · obtain ⟨items2, r2, hi, _, hex⟩ := h
                  simp only [Option.some.injEq, JValue.jarr.injEq] at hi
                  rw [← hi] at hex
                  have hce : ∃ e3,
                      processEntriesGo env.ghOwner 1 initLoopState items = .error e3 :=
                    (processEntriesGo_err_iff env.ghOwner 1 initLoopState items).mpr hex
                  obtain ⟨e3, he⟩ := hce
                  rw [processEntries] at hpe
                  rw [hpe] at he
                  simp at he
                · obtain ⟨items2, r2, st2, hi, hr2, hpe2, hup2⟩ := h
                  simp only [Option.some.injEq, JValue.jarr.injEq] at hi
                  simp only [Option.some.injEq] at hr2
                  rw [← hi] at hpe2
                  rw [hpe2] at hpe
                  simp only [Except.ok.injEq] at hpe
                  rw [← hr2, hpe] at hup2
                  rw [hup2] at hup
                  simp at hup
      | jnull => simp [main, hpf, fatalResult, exitCode, isArr]
      | jbool b => simp [main, hpf, fatalResult, exitCode, isArr]
      | jnum n => simp [main, hpf, fatalResult, exitCode, isArr]
      | jstr s2 => simp [main, hpf, fatalResult, exitCode, isArr]
      | jobj fs => simp [main, hpf, fatalResult, exitCode, isArr]

/-- C2 as stated is false: with a well-formed (empty-list) projects.json but
a missing README — a document-file condition — the process exits 1, a
fourth non-zero case beyond the three the claim allows. -/
theorem claim_C2_counterexample :
    exitCode (main env2).exit = 1 ∧ env2.projectsFile = some (some (.jarr [])) := by
  constructor
  · rfl
  · rfl

/- ### C7: the existence check and the per-repository error containment -/
theorem getLog_of_ok {o : GetOutcome} {b : Bool} (h : github_repo_exists o = .ok b) :
    getLog o = [] := by
  cases o with
  | success s => rfl
  | httpError c =>
    by_cases h4 : c = 404
    · simp [getLog, h4]
    · simp [github_repo_exists, h4] at h
  | transportError => simp [github_repo_exists] at h

/-- The stderr lines of a failing existence check reach the loop's log. -/
theorem reconcileLoop_logGet (g : Nat → GetOutcome) (p : Nat → PostOutcome) :
    ∀ (repos : List (Str × JValue)) (i j : Nat), j < repos.length →
      ∀ ev ∈ getLog (g (i + j)), ev ∈ (reconcileLoop g p i repos).log := by
  intro repos
  induction repos with
  | nil =>
    intro i j hj
    simp at hj
  | cons pr rest ih =>
    intro i j hj ev hev
    obtain ⟨own, repo⟩ := pr
    cases j with
    | zero =>
      simp only [Nat.add_zero] at hev
      cases hge : github_repo_exists (g i) with
      | error e =>
        simp only [reconcileLoop, hge]
        exact List.mem_append.mpr (Or.inl hev)
      | ok b =>
        rw [getLog_of_ok hge] at hev
        simp at hev
    | succ j1 =>
      simp only [List.length_cons] at hj
      have hshift : i + (j1 + 1) = (i + 1) + j1 := by omega
      rw [hshift] at hev
      have htail := ih (i + 1) j1 (by omega) ev hev
      cases hge : github_repo_exists (g i) with
      | error e =>
        simp only [reconcileLoop, hge]
        exact List.mem_append.mpr (Or.inr htail)
      | ok b =>
        cases b with
        | true =>
          simp only [reconcileLoop, hge]
          exact htail
        | false =>
          simp only [reconcileLoop, hge]
          refine List.mem_append.mpr (Or.inr htail)

/-- C7: (1) under the urllib contract (a delivered response is 2xx) the
existence check returns true exactly on a delivered (2xx) response, false
exactly on HTTP 404, and raises exactly on any other HTTP error or a
transport error; (2) the reconciliation loop issues the existence request
for every repository regardless of earlier failures (errors are caught and
the loop continues); (3) a non-404 HTTP failure or a transport failure of
the existence check is logged (the loop's log holds the error line for that
repository's request); (4) whatever the reconciliation step logs appears in
the run's log; (5) the exit status is unaffected by any request outcome. -/
theorem claim_C7 :
    (∀ o : GetOutcome, (∀ s, o = .success s → 200 ≤ s ∧ s < 300) →
      ((github_repo_exists o = .ok true ↔ ∃ s, o = .success s) ∧
       (github_repo_exists o = .ok false ↔ o = .httpError 404) ∧
       (github_repo_exists o = .error () ↔
         (∃ c, o = .httpError c ∧ c ≠ 404) ∨ o = .transportError))) ∧
    (∀ (g : Nat → GetOutcome) (p : Nat → PostOutcome) (i : Nat)
       (repos : List (Str × JValue)),
      (reconcileLoop g p i repos).gets.length = repos.length) ∧
    (∀ (g : Nat → GetOutcome) (p : Nat → PostOutcome) (i j : Nat)
       (repos : List (Str × JValue)), j < repos.length →
      (∀ c, g (i + j) = .httpError c → c ≠ 404 →
        LogEvent.errGetHttp c ∈ (reconcileLoop g p i repos).log) ∧
      (g (i + j) = .transportError →
        LogEvent.errGetTransport ∈ (reconcileLoop g p i repos).log)) ∧
    (∀ (env : Env) (items : List JValue) (r2 : Str) (st : LoopState) (ev : LogEvent),
      env.projectsFile = some (some (.jarr items)) → env.readmeFile = some r2 →
      processEntries env.ghOwner items = .ok st →
      ev ∈ (reconcile env.ghPat env.getO env.postO st.repos_needed).log →
      ev ∈ (main env).log) ∧
    (∀ (env : Env) (g : Nat → GetOutcome) (p : Nat → PostOutcome),
      (main { env with getO := g, postO := p }).exit = (main env).exit) := by
  refine ⟨?_, ?_, ?_, ?_, ?_⟩
  · intro o hwf
    cases o with
    | success s =>
      have hs := hwf s rfl
      refine ⟨?_, ?_, ?_⟩ <;> simp [github_repo_exists, hs.1, hs.2]
    | httpError c =>
      by_cases h4 : c = 404 <;> simp [github_repo_exists, h4]
    | transportError => simp [github_repo_exists]
  · intro g p i repos
    induction repos generalizing i with
    | nil => simp [reconcileLoop]
    | cons pr rest ih =>
      obtain ⟨own, repo⟩ := pr
      cases hge : github_repo_exists (g i) with
      | error e => cases e; simp [reconcileLoop, hge, ih]
      | ok b => cases b <;> simp [reconcileLoop, hge, ih]
  · intro g p i j repos hj
    constructor
    · intro c hgc hc4
      refine reconcileLoop_logGet g p repos i j hj _ ?_
      rw [hgc]
      simp [getLog, hc4]
    · intro hgt
      refine reconcileLoop_logGet g p repos i j hj _ ?_
      rw [hgt]
      simp [getLog]
  · intro env items r2 st ev h1 h2 h3 hev
    cases hup : updateAll r2 (collect_readme_marker_keys r2)
        (fun k => joinSpace (badgesFor st k)) with
    | error e =>
      simp [main, h1, h2, h3, hup]
      exact Or.inr (Or.inr hev)
    | ok nr =>
      simp [main, h1, h2, h3, hup]
      exact Or.inr (Or.inr (Or.inl hev))
  · intro env g p
    exact (main_indep env env.ghPat g p).1

theorem claim_C7_witness :
    github_repo_exists (.httpError 404) = .ok false ∧
    (reconcileLoop wGetO wPostO 0
      [("o".data, .jstr "r".data), ("o".data, .jstr "s".data)]).gets.length = 2 ∧
    LogEvent.errGetTransport ∈
      (reconcileLoop wGetO wPostO 0 [("o".data, .jstr "r".data)]).log :=
  ⟨(claim_C7.1 (.httpError 404) (by simp)).2.1.mpr rfl,
   claim_C7.2.1 wGetO wPostO 0 [("o".data, .jstr "r".data), ("o".data, .jstr "s".data)],
   (claim_C7.2.2.1 wGetO wPostO 0 0 [("o".data, .jstr "r".data)] (by decide)).2 rfl⟩

/- ### C8: no credential means no requests and an unchanged outcome -/
theorem reconcile_noPat (g : Nat → GetOutcome) (p : Nat → PostOutcome)
    (repos : List (Str × JValue)) :
    reconcile [] g p repos =
      ⟨[], [], if repos.isEmpty then [] else [.warnNoPat]⟩ := by
  by_cases hr : repos.isEmpty <;> simp [reconcile, hr]

theorem main_noPat_requests (env : Env) (h : env.ghPat = []) :
    (main env).gets = [] ∧ (main env).creates = [] := by
  cases hpf : env.projectsFile with
  | none => simp [main, hpf, fatalResult]
  | some od =>
    cases od with
    | none => simp [main, hpf, fatalResult]
    | some data =>
      cases data with
      | jarr items =>
        cases hrf : env.readmeFile with
        | none => simp [main, hpf, hrf, fatalResult]
        | some readme =>
          cases hpe : processEntries env.ghOwner items with
          | error e => simp [main, hpf, hrf, hpe]
          | ok st =>
            cases hup : updateAll readme (collect_readme_marker_keys readme)
                (fun k => joinSpace (badgesFor st k)) with
            | error e => simp [main, hpf, hrf, hpe, hup, h, reconcile_noPat]
            | ok nr => simp [main, hpf, hrf, hpe, hup, h, reconcile_noPat]
      | jnull => simp [main, hpf, fatalResult]
      | jbool b => simp [main, hpf, fatalResult]
      | jnum n => simp [main, hpf, fatalResult]
      | jstr s2 => simp [main, hpf, fatalResult]
      | jobj fs => simp [main, hpf, fatalResult]

theorem main_noPat_warn (env : Env) (h : env.ghPat = []) (items : List JValue)
    (r : Str) (st : LoopState)
    (h1 : env.projectsFile = some (some (.jarr items)))
    (h2 : env.readmeFile = some r)
    (h3 : processEntries env.ghOwner items = .ok st)
    (hne : st.repos_needed ≠ []) :
    LogEvent.warnNoPat ∈ (main env).log := by
  have hemp : st.repos_needed.isEmpty = false := by
    cases hre : st.repos_needed with
    | nil => rw [hre] at hne; exact absurd rfl hne
    | cons a l => rfl
  cases hup : updateAll r (collect_readme_marker_keys r)
      (fun k => joinSpace (badgesFor st k)) with
  | error e => simp [main, h1, h2, h3, hup, h, reconcile_noPat, hemp]
  | ok nr => simp [main, h1, h2, h3, hup, h, reconcile_noPat, hemp]

/-- C8: with no credential no existence or creation request is issued, the
exit status and the written document are exactly what they would be with any
credential and any request outcomes, and whenever the run reaches the
reconciliation step with a nonempty repository list the skip is logged with
a warning. -/
theorem claim_C8 (env : Env) (h : env.ghPat = []) :
    (main env).gets = [] ∧ (main env).creates = [] ∧
    (∀ pat g p, (main { env with ghPat := pat, getO := g, postO := p }).exit =
      (main env).exit) ∧
    (∀ pat g p, (main { env with ghPat := pat, getO := g, postO := p }).finalReadme =
      (main env).finalReadme) ∧
    (∀ items r st, env.projectsFile = some (some (.jarr items)) →
      env.readmeFile = some r → processEntries env.ghOwner items = .ok st →
      st.repos_needed ≠ [] → LogEvent.warnNoPat ∈ (main env).log) :=
  ⟨(main_noPat_requests env h).1, (main_noPat_requests env h).2,
   fun pat g p => (main_indep env pat g p).1,
   fun pat g p => (main_indep env pat g p).2,
   fun items r st h1 h2 h3 hne => main_noPat_warn env h items r st h1 h2 h3 hne⟩

theorem claim_C8_witness : (main env8).gets = [] ∧ (main env8).creates = [] :=
  ⟨(claim_C8 env8 rfl).1, (claim_C8 env8 rfl).2.1⟩

/- ### C3: repos_needed is one reference per valid entry, in input order -/
theorem processItem_repos (owner : Str) (idx : Nat) (st : LoopState)
    (item : JValue) (st1 : LoopState)
    (h : processItem owner idx st item = .ok st1) :
    st1.repos_needed = st.repos_needed ++
      (match entryRepo item with
       | some rv => [(owner, rv)]
       | none => []) := by
  cases item with
  | jobj fields =>
    by_cases hc : (truthyOpt (getField fields "name".data) &&
        truthyOpt (getField fields "language".data) &&
        truthyOpt (getField fields "repo".data)) = true
    · cases hn : normalize_language ((getField fields "language".data).getD .jnull) with
      | none =>
        have h1 : st1 = { st with log := st.log ++ [.warnUnmapped
            (pyStr ((getField fields "language".data).getD .jnull))] } := by
          have := h.symm
          simpa [processItem, hc, hn] using this
        simp [h1, entryRepo, hc, hn]
      | some nk =>
        by_cases hunh : unhashable ((getField fields "repo".data).getD .jnull) = true
        · exfalso
          simp [processItem, hc, hn, hunh] at h
        · have hunh2 : unhashable ((getField fields "repo".data).getD .jnull) = false := by
            simpa using hunh
          have h1 : st1.repos_needed = st.repos_needed ++
              [(owner, (getField fields "repo".data).getD .jnull)] := by
            by_cases hseen : (seenFor st nk.2).any
                (fun x => jeq x ((getField fields "repo".data).getD .jnull)) = true
            · simp [processItem, hc, hn, hunh2, hseen] at h
              rw [← h]
            · simp [processItem, hc, hn, hunh2, hseen] at h
              rw [← h]
          simp [h1, entryRepo, hc, hn]
    · have h1 : st1 = { st with log := st.log ++ [.warnIncomplete idx] } := by
        have := h.symm
        simpa [processItem, hc] using this
      simp [h1, entryRepo, hc]
  | jnull => simp [processItem] at h
  | jbool b => simp [processItem] at h
  | jnum n => simp [processItem] at h
  | jstr s2 => simp [processItem] at h
  | jarr xs => simp [processItem] at h

theorem processGo_repos (owner : Str) (items : List JValue) :
    ∀ (idx : Nat) (st st1 : LoopState),
      processEntriesGo owner idx st items = .ok st1 →
      st1.repos_needed = st.repos_needed ++
        items.filterMap (fun it => (entryRepo it).map fun rv => (owner, rv)) := by
  induction items with
  | nil =>
    intro idx st st1 h
    simp only [processEntriesGo, Except.ok.injEq] at h
    simp [← h]
  | cons item rest ih =>
    intro idx st st1 h
    cases hpi : processItem owner idx st item with
    | error e =>
      have hcon : processEntriesGo owner idx st (item :: rest) = .error e := by
        simp [processEntriesGo, hpi]
      rw [hcon] at h
      simp at h
    | ok st2 =>
      have hstep : processEntriesGo owner idx st (item :: rest) =
          processEntriesGo owner (idx + 1) st2 rest := by
        simp [processEntriesGo, hpi]
      rw [hstep] at h
      have hrec := ih (idx + 1) st2 st1 h
      have hone := processItem_repos owner idx st item st2 hpi
      rw [hrec, hone]
      cases her : entryRepo item <;> simp [List.filterMap_cons, her]

/-- C3 (amended): the reconciler iterates over one repository reference per
valid entry, in input order — duplicates included: a repo referenced by k
valid entries is checked k times, not once.  Distinct pairs are first
processed in first-reference order (they occur in the list in that order),
but the claim's "each distinct pair exactly once" is false (see the
counterexample). -/
theorem claim_C3 (owner : Str) (items : List JValue) (st : LoopState)
    (h : processEntries owner items = .ok st) :
    st.repos_needed =
      items.filterMap (fun it => (entryRepo it).map fun rv => (owner, rv)) ∧
    (∀ (g : Nat → GetOutcome) (p : Nat → PostOutcome) (i : Nat),
      (reconcileLoop g p i st.repos_needed).gets =
        st.repos_needed.map fun pr => (pr.1, pyStr pr.2)) := by
  constructor
  · have := processGo_repos owner items 1 initLoopState st h
    simpa [initLoopState] using this
  · intro g p i
    generalize st.repos_needed = repos
    clear h
    induction repos generalizing i with
    | nil => simp [reconcileLoop]
    | cons pr rest ih =>
      obtain ⟨own, repo⟩ := pr
      cases hge : github_repo_exists (g i) with
      | error e => cases e; simp [reconcileLoop, hge, ih]
      | ok b => cases b <;> simp [reconcileLoop, hge, ih]

/-- C3 as stated is false: two valid entries referencing the same repo make
the loop issue the existence request for that (owner, repo) pair twice in
one run, not exactly once. -/
theorem claim_C3_counterexample :
    (main env3).gets = [("o".data, "r".data), ("o".data, "r".data)] := by
  rfl

theorem claim_C3_witness :
    st3.repos_needed =
      items3.filterMap (fun it => (entryRepo it).map fun rv => (("o".data : Str), rv)) :=
  (claim_C3 "o".data items3 st3 (by rfl)).1

/- ### C6: badge groups dedup by repo, first entry wins, order preserved -/
theorem lookupAssoc_setAssoc_self {α : Type} (m : List (Str × α)) (k : Str) (v : α) :
    lookupAssoc (setAssoc m k v) k = some v := by
  induction m with
  | nil => simp [setAssoc, lookupAssoc]
  | cons f rest ih =>
    obtain ⟨k0, v0⟩ := f
    by_cases hk : k0 = k
    · simp [setAssoc, hk, lookupAssoc]
    · simp [setAssoc, hk, lookupAssoc, ih]

theorem lookupAssoc_setAssoc_ne {α : Type} (m : List (Str × α)) (k k1 : Str) (v : α)
    (h : k1 ≠ k) : lookupAssoc (setAssoc m k v) k1 = lookupAssoc m k1 := by
  have hne : ¬ (k = k1) := fun hh => h hh.symm
  induction m with
  | nil => simp [setAssoc, lookupAssoc, hne]
  | cons f rest ih =>
    obtain ⟨k0, v0⟩ := f
    by_cases hk : k0 = k
    · simp [setAssoc, hk, lookupAssoc, hne]
    · by_cases hk1 : k0 = k1
      · subst hk1
        simp [setAssoc, hk, lookupAssoc]
      · simp [setAssoc, hk, lookupAssoc, hk1, ih]

theorem processGo_badges (owner : Str) (items : List JValue) :
    ∀ (idx : Nat) (st st1 : LoopState) (k : Str),
      processEntriesGo owner idx st items = .ok st1 →
      badgesFor st1 k = badgesFor st k ++
        (firstByRepoAux (validFor owner k items) (seenFor st k)).map VEntry.badge := by
  induction items with
  | nil =>
    intro idx st st1 k h
    simp only [processEntriesGo, Except.ok.injEq] at h
    simp [← h, validFor, firstByRepoAux]
  | cons item rest ih =>
    intro idx st st1 k h
    cases hpi : processItem owner idx st item with
    | error e =>
      have hcon : processEntriesGo owner idx st (item :: rest) = .error e := by
        simp [processEntriesGo, hpi]
      rw [hcon] at h
      simp at h
    | ok st2 =>
      have hstep : processEntriesGo owner idx st (item :: rest) =
          processEntriesGo owner (idx + 1) st2 rest := by
        simp [processEntriesGo, hpi]
      rw [hstep] at h
      have hrec := ih (idx + 1) st2 st1 k h
      cases item with
      | jobj fields =>
        by_cases hc : (truthyOpt (getField fields "name".data) &&
            truthyOpt (getField fields "language".data) &&
            truthyOpt (getField fields "repo".data)) = true
        · cases hn : normalize_language ((getField fields "language".data).getD .jnull) with
          | none =>
            have hed : entryData owner (.jobj fields) = none := by
              simp [entryData, hc, hn]
            have hst2 : st2 = { st with log := st.log ++ [.warnUnmapped
                (pyStr ((getField fields "language".data).getD .jnull))] } := by
              simp [processItem, hc, hn] at hpi
              exact hpi.symm
            rw [hrec, hst2]
            simp [validFor, List.filterMap_cons, hed, badgesFor, seenFor]
          | some nk =>
            have hed : entryData owner (.jobj fields) =
                some (nk.2, ⟨(getField fields "repo".data).getD .jnull,
                  build_badge_md (pyStr ((getField fields "name".data).getD .jnull)) owner
                    (pyStr ((getField fields "repo".data).getD .jnull))⟩) := by
              simp [entryData, hc, hn]
            by_cases hunh : unhashable ((getField fields "repo".data).getD .jnull) = true
            · exfalso
              simp [processItem, hc, hn, hunh] at hpi
            have hunh2 : unhashable ((getField fields "repo".data).getD .jnull) = false := by
              simpa using hunh
            by_cases hseen : ((seenFor st nk.2).any
                (fun x => jeq x ((getField fields "repo".data).getD .jnull))) = true
            · have hst2 : st2 = { st with
                  repos_needed := st.repos_needed ++
                    [(owner, (getField fields "repo".data).getD .jnull)] } := by
                simp [processItem, hc, hn, hunh2, hseen] at hpi
                exact hpi.symm
              have hb2 : ∀ k2, badgesFor st2 k2 = badgesFor st k2 := by
                intro k2; simp [badgesFor, hst2]
              have hs2 : ∀ k2, seenFor st2 k2 = seenFor st k2 := by
                intro k2; simp [seenFor, hst2]
              rw [hrec, hb2, hs2]
              by_cases hkey : nk.2 = k
              · rw [hkey] at hseen
                simp [validFor, List.filterMap_cons, hed, hkey, firstByRepoAux, hseen]
              · simp [validFor, List.filterMap_cons, hed, hkey]
            · have hst2 : st2 = { st with
                  badges_by_key := setAssoc st.badges_by_key nk.2 (badgesFor st nk.2 ++
                    [build_badge_md (pyStr ((getField fields "name".data).getD .jnull)) owner
                      (pyStr ((getField fields "repo".data).getD .jnull))]),
                  seen_by_key := setAssoc st.seen_by_key nk.2
                    ((getField fields "repo".data).getD .jnull :: seenFor st nk.2),
                  repos_needed := st.repos_needed ++
                    [(owner, (getField fields "repo".data).getD .jnull)] } := by
                simp [processItem, hc, hn, hunh2, hseen] at hpi
                exact hpi.symm
              by_cases hkey : nk.2 = k
              · have hb2 : badgesFor st2 k = badgesFor st k ++
                    [build_badge_md (pyStr ((getField fields "name".data).getD .jnull)) owner
                      (pyStr ((getField fields "repo".data).getD .jnull))] := by
                  rw [hst2]
                  simp only [badgesFor]
                  rw [← hkey]
                  simp [lookupAssoc_setAssoc_self]
                have hs2 : seenFor st2 k =
                    (getField fields "repo".data).getD .jnull :: seenFor st k := by
                  rw [hst2]
                  simp only [seenFor]
                  rw [← hkey]
                  simp [lookupAssoc_setAssoc_self]
                rw [hrec, hb2, hs2]
                rw [hkey] at hseen
                simp [validFor, List.filterMap_cons, hed, hkey, firstByRepoAux, hseen]
              · have hb2 : badgesFor st2 k = badgesFor st k := by
                  rw [hst2]
                  simp only [badgesFor]
                  rw [lookupAssoc_setAssoc_ne _ _ _ _ (fun hh => hkey hh.symm)]
                have hs2 : seenFor st2 k = seenFor st k := by
                  rw [hst2]
                  simp only [seenFor]
                  rw [lookupAssoc_setAssoc_ne _ _ _ _ (fun hh => hkey hh.symm)]
                rw [hrec, hb2, hs2]
                simp [validFor, List.filterMap_cons, hed, hkey]
        · have hed : entryData owner (.jobj fields) = none := by
            simp [entryData, hc]
          have hst2 : st2 = { st with log := st.log ++ [.warnIncomplete idx] } := by
            simp [processItem, hc] at hpi
            exact hpi.symm
          rw [hrec, hst2]
          simp [validFor, List.filterMap_cons, hed, badgesFor, seenFor]
      | jnull => simp [processItem] at hpi
      | jbool b => simp [processItem] at hpi
      | jnum n => simp [processItem] at hpi
      | jstr s2 => simp [processItem] at hpi
      | jarr xs => simp [processItem] at hpi

theorem firstByRepoAux_sublist (l : List VEntry) (seen : List JValue) :
    (firstByRepoAux l seen).Sublist l := by
  induction l generalizing seen with
  | nil => simp [firstByRepoAux]
  | cons e rest ih =>
    by_cases hseen : (seen.any fun x => jeq x e.repoV) = true
    · simp only [firstByRepoAux, hseen, if_true]
      exact (ih seen).cons e
    · simp only [firstByRepoAux, hseen]
      simp only [Bool.false_eq_true, if_false]
      exact (ih (e.repoV :: seen)).cons₂ e

theorem any_jeq_congr {a b : JValue} (h : canon a = canon b) (seen : List JValue) :
    (seen.any fun x => jeq x a) = (seen.any fun x => jeq x b) := by
  induction seen with
  | nil => rfl
  | cons x rest ih => simp [List.any_cons, jeq_congr h x, ih]

theorem firstByRepoAux_count (l : List VEntry) (seen : List JValue) (r : JValue) :
    ((firstByRepoAux l seen).filter fun e => jeq e.repoV r).length =
      if (seen.any fun x => jeq x r) = true then 0
      else if (l.any fun e => jeq e.repoV r) = true then 1 else 0 := by
  induction l generalizing seen with
  | nil => simp [firstByRepoAux]
  | cons e rest ih =>
    by_cases her : canon e.repoV = canon r
    · have hker : jeq e.repoV r = true := (jeq_canon _ _).mpr her
      by_cases hseen : (seen.any fun x => jeq x e.repoV) = true
      · have hsr : (seen.any fun x => jeq x r) = true := by
          rw [← any_jeq_congr her seen]
          exact hseen
        simp only [firstByRepoAux, hseen, if_true]
        rw [ih seen, hsr]
        simp
      · have hsr : (seen.any fun x => jeq x r) = false := by
          rw [← any_jeq_congr her seen]
          cases hx : seen.any fun x => jeq x e.repoV with
          | true => exact absurd hx hseen
          | false => rfl
        simp only [firstByRepoAux, hseen, Bool.false_eq_true, if_false]
        have hnew : ((e.repoV :: seen).any fun x => jeq x r) = true := by
          simp [List.any_cons, hker]
        rw [List.filter_cons]
        simp only [hker, if_true]
        rw [List.length_cons, ih (e.repoV :: seen), hnew]
        simp [hsr, List.any_cons, hker]
    · have hker : jeq e.repoV r = false := by
        cases hx : jeq e.repoV r with
        | true => exact absurd ((jeq_canon _ _).mp hx) her
        | false => rfl
      by_cases hseen : (seen.any fun x => jeq x e.repoV) = true
      · simp only [firstByRepoAux, hseen, if_true]
        rw [ih seen]
        simp [List.any_cons, hker]
      · simp only [firstByRepoAux, hseen, Bool.false_eq_true, if_false]
        rw [List.filter_cons]
        simp only [hker, Bool.false_eq_true, if_false]
        rw [ih (e.repoV :: seen)]
        have hcs : ((e.repoV :: seen).any fun x => jeq x r) =
            (seen.any fun x => jeq x r) := by
          simp [List.any_cons, hker]
        rw [hcs]
        simp [List.any_cons, hker]

theorem firstByRepoAux_find (l : List VEntry) (seen : List JValue) (r : JValue)
    (h : (seen.any fun x => jeq x r) = false) :
    (firstByRepoAux l seen).find? (fun e => jeq e.repoV r) =
      l.find? (fun e => jeq e.repoV r) := by
  induction l generalizing seen with
  | nil => simp [firstByRepoAux]
  | cons e rest ih =>
    by_cases her : canon e.repoV = canon r
    · have hker : jeq e.repoV r = true := (jeq_canon _ _).mpr her
      have hseen : (seen.any fun x => jeq x e.repoV) = false := by
        rw [any_jeq_congr her seen]
        exact h
      simp only [firstByRepoAux, hseen, Bool.false_eq_true, if_false]
      rw [List.find?_cons, List.find?_cons]
      simp [hker]
    · have hker : jeq e.repoV r = false := by
        cases hx : jeq e.repoV r with
        | true => exact absurd ((jeq_canon _ _).mp hx) her
        | false => rfl
      by_cases hseen : (seen.any fun x => jeq x e.repoV) = true
      · simp only [firstByRepoAux, hseen, if_true]
        rw [ih seen h, List.find?_cons]
        simp [hker]
      · simp only [firstByRepoAux, hseen, Bool.false_eq_true, if_false]
        have hnew : ((e.repoV :: seen).any fun x => jeq x r) = false := by
          simp [List.any_cons, hker, h]
        rw [List.find?_cons, List.find?_cons]
        simp only [hker, Bool.false_eq_true, if_false]
        exact ih (e.repoV :: seen) hnew

/-- C6 (amended): for every input whose entry loop completes (no non-object
element, no valid entry with an unhashable list- or dict-valued repo — such
an entry crashes the run instead of contributing a badge, see the
counterexample) and every marker key, the badge group built for the key is
exactly the badge of the first valid entry per distinct repo value under
Python `==` — which equates `True` with `1` and `False` with `0` — in
insertion order: the group equals the per-repo first-occurrence filtering
of the valid entries for that key (so two valid entries with the same repo
and the same normalized language yield exactly one badge — the first
one's), the group is a subsequence of the valid-entry sequence (insertion
order of distinct repos preserved), each repo value occurs exactly once
when referenced at all, and the entry kept for a repo is the first one. -/
theorem claim_C6 (owner : Str) (items : List JValue) (st : LoopState) (k : Str)
    (h : processEntries owner items = .ok st) :
    badgesFor st k = (firstByRepo (validFor owner k items)).map VEntry.badge ∧
    (firstByRepo (validFor owner k items)).Sublist (validFor owner k items) ∧
    (∀ r : JValue,
      ((firstByRepo (validFor owner k items)).filter fun e => jeq e.repoV r).length =
        if (validFor owner k items).any (fun e => jeq e.repoV r) = true then 1 else 0) ∧
    (∀ r : JValue,
      (firstByRepo (validFor owner k items)).find? (fun e => jeq e.repoV r) =
        (validFor owner k items).find? (fun e => jeq e.repoV r)) := by
  refine ⟨?_, firstByRepoAux_sublist _ _, ?_, ?_⟩
  · have := processGo_badges owner items 1 initLoopState st k h
    simpa [initLoopState, badgesFor, seenFor, lookupAssoc, firstByRepo] using this
  · intro r
    rw [firstByRepo, firstByRepoAux_count]
    simp
  · intro r
    rw [firstByRepo, firstByRepoAux_find]
    simp

/-- C6 as stated is false for entries the claim covers: two complete
entries with the same (list-valued) repo and the same language do not
yield exactly one badge — the membership test on the seen set raises
`TypeError: unhashable type` on the first of them and the run dies with a
traceback instead of building any badge group. -/
theorem claim_C6_counterexample :
    processEntries "o".data items6ce = .error () ∧
    (main env6ce).exit = .crash ∧ exitCode (main env6ce).exit = 1 := by
  refine ⟨rfl, rfl, rfl⟩

theorem claim_C6_witness :
    badgesFor st6 ("C".data) =
      (firstByRepo (validFor "o".data ("C".data) items6)).map VEntry.badge :=
  (claim_C6 "o".data items6 st6 ("C".data) (by rfl)).1

theorem dropLit_exact (a b : Str) : dropLit a (a ++ b) = some b := by
  have hp : a.isPrefixOf (a ++ b) = true := (List.isPrefixOf_iff_prefix).mpr ⟨b, rfl⟩
  simp [dropLit, hp, List.drop_left]

theorem dropLit_some {lit t r : Str} (h : dropLit lit t = some r) : t = lit ++ r := by
  by_cases hp : lit.isPrefixOf t
  · simp only [dropLit, hp, if_true, Option.some.injEq] at h
    obtain ⟨tail, htail⟩ := (List.isPrefixOf_iff_prefix).mp hp
    rw [← htail, ← h, ← htail]
    simp [List.drop_left]
  · simp [dropLit, hp] at h

theorem split_none_ltFree {sep : Str} (s1 : Str) (hsep : sep = '<' :: s1)
    {a : Str} (ha : ltFree a) : splitAtFirst sep a = none := by
  induction a with
  | nil => simp [splitAtFirst, hsep, List.isPrefixOf]
  | cons c r ih =>
    have hc : ('<' : Char) ≠ c := by
      intro hcc
      exact ha (by simp [ltFree, ← hcc])
    have hnp : sep.isPrefixOf (c :: r) = false := by
      rw [hsep]
      simp [List.isPrefixOf, hc]
    have hfree : ltFree r := fun hm => ha (by simp [ltFree, hm])
    simp [splitAtFirst, hnp, ih hfree]

theorem skips_ltFree {sep : Str} (s1 : Str) (hsep : sep = '<' :: s1)
    {a : Str} (ha : ltFree a) : Skips sep a := by
  induction a with
  | nil =>
    intro X
    rw [List.nil_append]
    cases splitAtFirst sep X <;> simp
  | cons c r ih =>
    have hc : ('<' : Char) ≠ c := by
      intro hcc
      exact ha (by simp [ltFree, ← hcc])
    have hfree : ltFree r := fun hm => ha (by simp [ltFree, hm])
    intro X
    have hnp : sep.isPrefixOf (c :: (r ++ X)) = false := by
      rw [hsep]
      simp [List.isPrefixOf, hc]
    have hrec := ih hfree X
    rw [show (c :: r) ++ X = c :: (r ++ X) from rfl, splitAtFirst, hnp]
    simp only [Bool.false_eq_true, if_false, hrec]
    cases splitAtFirst sep X <;> simp

theorem skips_append {sep A B : Str} (hA : Skips sep A) (hB : Skips sep B) :
    Skips sep (A ++ B) := by
  intro X
  rw [List.append_assoc, hA (B ++ X), hB X]
  cases splitAtFirst sep X <;> simp

theorem prefix_cancel_left {P a b : Str} : ((P ++ a) <+: (P ++ b)) ↔ a <+: b := by
  constructor
  · rintro ⟨t, ht⟩
    refine ⟨t, ?_⟩
    rw [List.append_assoc] at ht
    exact List.append_cancel_left ht
  · rintro ⟨t, ht⟩
    exact ⟨t, by rw [List.append_assoc, ht]⟩

theorem prefixKey {k k1 u v : Str} (hk : ':' ∉ k) (hk1 : ':' ∉ k1)
    (h : (k1 ++ ':' :: u) <+: (k ++ ':' :: v)) : k1 = k ∧ u <+: v := by
  induction k1 generalizing k with
  | nil =>
    cases k with
    | nil =>
      have h2 : (':' :: u) <+: (':' :: v) := by simpa using h
      exact ⟨rfl, (List.cons_prefix_cons.mp h2).2⟩
    | cons c k2 =>
      exfalso
      simp only [List.nil_append, List.cons_append] at h
      have := (List.cons_prefix_cons.mp h).1
      exact hk (by simp [← this])
  | cons c1 k2 ih =>
    cases k with
    | nil =>
      exfalso
      simp only [List.cons_append, List.nil_append] at h
      have := (List.cons_prefix_cons.mp h).1
      exact hk1 (by simp [this])
    | cons c k3 =>
      simp only [List.cons_append] at h
      obtain ⟨hc, htail⟩ := List.cons_prefix_cons.mp h
      have hk' : ':' ∉ k3 := fun hm => hk (by simp [hm])
      have hk1' : ':' ∉ k2 := fun hm => hk1 (by simp [hm])
      obtain ⟨hkeq, huv⟩ := ih hk' hk1' htail
      exact ⟨by rw [hc, hkeq], huv⟩

theorem keyChar_ne_colon {c : Char} (h : isKeyChar c = true) : c ≠ ':' := by
  intro hc
  rw [hc] at h
  simp [isKeyChar] at h

theorem keyChar_ne_lt {c : Char} (h : isKeyChar c = true) : c ≠ '<' := by
  intro hc
  rw [hc] at h
  simp [isKeyChar] at h

theorem goodKey_colon {k : Str} (hk : goodKey k) : ':' ∉ k := by
  intro hm
  exact keyChar_ne_colon (hk.2 ':' hm) rfl

theorem startM_assoc (k y : Str) :
    startM k ++ y = "<!-- PROJECTS:".data ++ (k ++ (':' :: ("START -->".data ++ y))) := by
  rw [startM]
  rw [show ((":START -->".data : Str)) = ':' :: "START -->".data from rfl]
  simp [List.append_assoc]

theorem endM_assoc (k y : Str) :
    endM k ++ y = "<!-- PROJECTS:".data ++ (k ++ (':' :: ("END -->".data ++ y))) := by
  rw [endM]
  rw [show ((":END -->".data : Str)) = ':' :: "END -->".data from rfl]
  simp [List.append_assoc]

theorem not_prefix_SS {k k1 : Str} (hk : ':' ∉ k) (hk1 : ':' ∉ k1) (hne : k1 ≠ k)
    (X : Str) : ¬ (startM k1).isPrefixOf (startM k ++ X) = true := by
  intro hcon
  have hp : startM k1 <+: startM k ++ X := (List.isPrefixOf_iff_prefix).mp hcon
  rw [startM_assoc k X, show (startM k1 : Str) = startM k1 ++ [] by simp,
    startM_assoc k1 []] at hp
  have h2 := prefix_cancel_left.mp hp
  simp only [List.append_nil] at h2
  exact hne (prefixKey hk hk1 h2).1

theorem not_prefix_SE {k k1 : Str} (hk : ':' ∉ k) (hk1 : ':' ∉ k1) (X : Str) :
    ¬ (startM k1).isPrefixOf (endM k ++ X) = true := by
  intro hcon
  have hp : startM k1 <+: endM k ++ X := (List.isPrefixOf_iff_prefix).mp hcon
  rw [endM_assoc k X, show (startM k1 : Str) = startM k1 ++ [] by simp,
    startM_assoc k1 []] at hp
  have h2 := prefix_cancel_left.mp hp
  simp only [List.append_nil] at h2
  have h3 := (prefixKey hk hk1 h2).2
  have h4 : ('S' : Char) = 'E' := (List.cons_prefix_cons.mp h3).1
  simp at h4

theorem not_prefix_ES {k k1 : Str} (hk : ':' ∉ k) (hk1 : ':' ∉ k1) (X : Str) :
    ¬ (endM k1).isPrefixOf (startM k ++ X) = true := by
  intro hcon
  have hp : endM k1 <+: startM k ++ X := (List.isPrefixOf_iff_prefix).mp hcon
  rw [startM_assoc k X, show (endM k1 : Str) = endM k1 ++ [] by simp,
    endM_assoc k1 []] at hp
  have h2 := prefix_cancel_left.mp hp
  simp only [List.append_nil] at h2
  have h3 := (prefixKey hk hk1 h2).2
  have h4 : ('E' : Char) = 'S' := (List.cons_prefix_cons.mp h3).1
  simp at h4

theorem not_prefix_EE {k k1 : Str} (hk : ':' ∉ k) (hk1 : ':' ∉ k1) (hne : k1 ≠ k)
    (X : Str) : ¬ (endM k1).isPrefixOf (endM k ++ X) = true := by
  intro hcon
  have hp : endM k1 <+: endM k ++ X := (List.isPrefixOf_iff_prefix).mp hcon
  rw [endM_assoc k X, show (endM k1 : Str) = endM k1 ++ [] by simp,
    endM_assoc k1 []] at hp
  have h2 := prefix_cancel_left.mp hp
  simp only [List.append_nil] at h2
  exact hne (prefixKey hk hk1 h2).1

theorem startM_cons (k : Str) :
    startM k = '<' :: ("!-- PROJECTS:".data ++ k ++ ":START -->".data) := rfl

theorem endM_cons (k : Str) :
    endM k = '<' :: ("!-- PROJECTS:".data ++ k ++ ":END -->".data) := rfl

theorem startM_tail_ltFree {k : Str} (hk : goodKey k) :
    ltFree ("!-- PROJECTS:".data ++ k ++ ":START -->".data) := by
  intro hm
  rw [List.mem_append, List.mem_append] at hm
  rcases hm with (hm | hm) | hm
  · revert hm; decide
  · exact keyChar_ne_lt (hk.2 '<' hm) rfl
  · revert hm; decide

theorem endM_tail_ltFree {k : Str} (hk : goodKey k) :
    ltFree ("!-- PROJECTS:".data ++ k ++ ":END -->".data) := by
  intro hm
  rw [List.mem_append, List.mem_append] at hm
  rcases hm with (hm | hm) | hm
  · revert hm; decide
  · exact keyChar_ne_lt (hk.2 '<' hm) rfl
  · revert hm; decide

theorem skips_sentinel {sep : Str} (s1 : Str) (hsep : sep = '<' :: s1)
    {m m1 : Str} (hm : m = '<' :: m1) (hfree : ltFree m1)
    (hnp : ∀ X, ¬ sep.isPrefixOf (m ++ X) = true) : Skips sep m := by
  intro X
  have hnp2 : sep.isPrefixOf (m ++ X) = false := by
    cases hx : sep.isPrefixOf (m ++ X) with
    | true => exact absurd hx (hnp X)
    | false => rfl
  rw [hm] at hnp2 ⊢
  rw [show ('<' :: m1) ++ X = '<' :: (m1 ++ X) from rfl, splitAtFirst]
  rw [show ('<' :: (m1 ++ X)) = ('<' :: m1) ++ X from rfl, hnp2]
  simp only [Bool.false_eq_true, if_false]
  rw [skips_ltFree s1 hsep hfree X]
  cases splitAtFirst sep X <;> simp

theorem skips_startM {sep : Str} (s1 : Str) (hsep : sep = '<' :: s1)
    {k : Str} (hk : goodKey k)
    (hnp : ∀ X, ¬ sep.isPrefixOf (startM k ++ X) = true) : Skips sep (startM k) :=
  skips_sentinel s1 hsep (startM_cons k) (startM_tail_ltFree hk) hnp

theorem skips_endM {sep : Str} (s1 : Str) (hsep : sep = '<' :: s1)
    {k : Str} (hk : goodKey k)
    (hnp : ∀ X, ¬ sep.isPrefixOf (endM k ++ X) = true) : Skips sep (endM k) :=
  skips_sentinel s1 hsep (endM_cons k) (endM_tail_ltFree hk) hnp

theorem splice_cong {k B Z c : Str} (hs : Skips (startM k) B) :
    spliceFirst (B ++ Z) k c = B ++ spliceFirst Z k c := by
  cases hz : splitAtFirst (startM k) Z with
  | none =>
    have hbz : splitAtFirst (startM k) (B ++ Z) = none := by rw [hs Z, hz]; rfl
    simp [spliceFirst, findRegion, hz, hbz]
  | some pr =>
    obtain ⟨u, v⟩ := pr
    have hbz : splitAtFirst (startM k) (B ++ Z) = some (B ++ u, v) := by
      rw [hs Z, hz]; rfl
    cases he : splitAtFirst (endM k) v with
    | none => simp [spliceFirst, findRegion, hz, hbz, he]
    | some pr2 =>
      obtain ⟨i, q⟩ := pr2
      simp [spliceFirst, findRegion, hz, hbz, he, List.append_assoc]

/-- Splicing key `k` in a canonical document updates exactly the inner text
of the (unique) part carrying `k`, and leaves the document unchanged when no
part carries `k`. -/
theorem splice_assemble {k : Str} (hk : goodKey k) (c : Str) :
    ∀ (seg0 : Str) (ps : List Part), WF seg0 ps →
      spliceFirst (assemble seg0 ps) k c =
        assemble seg0 (updFirst k c ps) := by
  intro seg0 ps
  induction ps generalizing seg0 with
  | nil =>
    intro hwf
    have hnone : splitAtFirst (startM k) seg0 = none :=
      split_none_ltFree _ (startM_cons k) hwf.1
    simp [assemble, spliceFirst, findRegion, hnone, updFirst]
  | cons p ps ih =>
    intro hwf
    obtain ⟨hseg0, hnd, hall⟩ := hwf
    obtain ⟨hgp, hinner, hseg⟩ := hall p (by simp)
    have hwftail : WF p.seg ps :=
      ⟨hseg, by simpa using hnd.of_cons, fun q hq => hall q (by simp [hq])⟩
    by_cases hkey : p.key = k
    · -- the first part carries the key: both splits land on its sentinels
      have hS : splitAtFirst (startM k)
          (assemble seg0 (p :: ps)) =
            some (seg0, p.inner ++ (endM p.key ++ assemble p.seg ps)) := by
        have hskip : Skips (startM k) seg0 :=
          skips_ltFree _ (startM_cons k) hseg0
        have harr : assemble seg0 (p :: ps) =
            seg0 ++ (startM k ++ (p.inner ++ (endM p.key ++ assemble p.seg ps))) := by
          rw [assemble, hkey]
          simp [List.append_assoc]
        rw [harr, hskip, splitAtFirst_self]
        simp
      have hE : splitAtFirst (endM k)
          (p.inner ++ (endM p.key ++ assemble p.seg ps)) =
            some (p.inner, assemble p.seg ps) := by
        have hskip : Skips (endM k) p.inner :=
          skips_ltFree _ (endM_cons k) hinner
        rw [hskip, hkey, splitAtFirst_self]
        simp
      have hrepl : spliceFirst (assemble seg0 (p :: ps)) k c =
          seg0 ++ startM k ++ c ++ endM k ++ assemble p.seg ps := by
        simp [spliceFirst, findRegion, hS, hE]
      rw [hrepl]
      simp [updFirst, hkey, assemble]
    · -- the first part carries another key: the search skips over it
      have hkc : ':' ∉ k := goodKey_colon hk
      have hpc : ':' ∉ p.key := goodKey_colon hgp
      have hne : k ≠ p.key := fun hh => hkey hh.symm
      have hskips : Skips (startM k)
          (seg0 ++ startM p.key ++ p.inner ++ endM p.key) := by
        have h1 : Skips (startM k) seg0 := skips_ltFree _ (startM_cons k) hseg0
        have h2 : Skips (startM k) (startM p.key) :=
          skips_startM _ (startM_cons k) hgp (not_prefix_SS hpc hkc hne)
        have h3 : Skips (startM k) p.inner := skips_ltFree _ (startM_cons k) hinner
        have h4 : Skips (startM k) (endM p.key) :=
          skips_endM _ (startM_cons k) hgp (not_prefix_SE hpc hkc)
        exact skips_append (skips_append (skips_append h1 h2) h3) h4
      have harr : assemble seg0 (p :: ps) =
          (seg0 ++ startM p.key ++ p.inner ++ endM p.key) ++ assemble p.seg ps := by
        rw [assemble]
      have hupd : updFirst k c (p :: ps) = p :: updFirst k c ps := by
        simp [updFirst, hkey]
      rw [harr, splice_cong hskips, ih p.seg hwftail, hupd, assemble]

theorem updFirst_keys (k c : Str) (ps : List Part) :
    (updFirst k c ps).map Part.key = ps.map Part.key := by
  induction ps with
  | nil => rfl
  | cons p ps ih =>
    by_cases hkey : p.key = k <;> simp [updFirst, hkey, ih]

theorem updFirst_mem {k c : Str} {ps : List Part} {q : Part}
    (hq : q ∈ updFirst k c ps) :
    q ∈ ps ∨ ∃ p ∈ ps, q = { p with inner := c } := by
  induction ps with
  | nil => simp [updFirst] at hq
  | cons p ps ih =>
    by_cases hkey : p.key = k
    · simp only [updFirst, hkey, if_true] at hq
      rcases List.mem_cons.mp hq with hq | hq
      · exact Or.inr ⟨p, by simp, by rw [hq, hkey]⟩
      · exact Or.inl (by simp [hq])
    · simp only [updFirst, hkey, Bool.false_eq_true, if_false] at hq
      rcases List.mem_cons.mp hq with hq | hq
      · exact Or.inl (by simp [hq])
      · rcases ih hq with h | hex
        · exact Or.inl (by simp [h])
        · obtain ⟨r, hr, hqr⟩ := hex
          exact Or.inr ⟨r, by simp [hr], hqr⟩

theorem WF_updFirst {seg0 : Str} {ps : List Part} (hwf : WF seg0 ps)
    {k c : Str} (hc : ltFree c) : WF seg0 (updFirst k c ps) := by
  obtain ⟨hseg0, hnd, hall⟩ := hwf
  refine ⟨hseg0, by rw [updFirst_keys]; exact hnd, ?_⟩
  intro q hq
  rcases updFirst_mem hq with hmem | hex
  · exact hall q hmem
  · obtain ⟨r, hr, hqr⟩ := hex
    obtain ⟨hg, hi, hs⟩ := hall r hr
    rw [hqr]
    exact ⟨hg, hc, hs⟩

theorem goodKey_bsFree {k : Str} (hk : goodKey k) : '\\' ∉ k := by
  intro hm
  exact absurd (hk.2 '\\' hm) (by decide)

theorem updateAll_assemble (content : Str → Str) (hfree : ∀ k2, ltFree (content k2))
    (hbs : ∀ k2, bsFree (content k2)) :
    ∀ (ks : List Str), (∀ k2 ∈ ks, goodKey k2) →
      ∀ (seg0 : Str) (ps : List Part), WF seg0 ps →
        updateAll (assemble seg0 ps) ks content =
          .ok (assemble seg0
            (ks.foldl (fun acc k2 => updFirst k2 (content k2) acc) ps)) := by
  intro ks
  induction ks with
  | nil =>
    intro _ seg0 ps _
    simp [updateAll]
    rfl
  | cons k ks ih =>
    intro hgood seg0 ps hwf
    have hgk := hgood k (by simp)
    have hstep : updateAll (assemble seg0 ps) (k :: ks) content =
        updateAll (spliceFirst (assemble seg0 ps) k (content k)) ks content := by
      simp only [updateAll, List.foldlM_cons]
      rw [replace_ok (goodKey_bsFree hgk) (hbs k) (assemble seg0 ps)]
      rfl
    rw [hstep, splice_assemble hgk (content k) seg0 ps hwf]
    rw [ih (fun k2 hk2 => hgood k2 (by simp [hk2])) seg0 _
      (WF_updFirst hwf (hfree k))]
    simp

theorem updFirst_not_mem {k c : Str} {ps : List Part}
    (h : k ∉ ps.map Part.key) : updFirst k c ps = ps := by
  induction ps with
  | nil => rfl
  | cons p ps ih =>
    have h1 : p.key ≠ k := by
      intro hh
      exact h (by simp [hh])
    simp [updFirst, h1, ih (fun hm => h (by simp [hm]))]

theorem mapUpdOn_not_mem {content : Str → Str} {k : Str} {T : List Str}
    {ps : List Part} (h : k ∉ ps.map Part.key) :
    mapUpdOn content (k :: T) ps = mapUpdOn content T ps := by
  induction ps with
  | nil => rfl
  | cons p ps ih =>
    have h1 : p.key ≠ k := by
      intro hh
      exact h (by simp [hh])
    have h2 : (p.key ∈ k :: T) ↔ (p.key ∈ T) := by simp [h1]
    simp only [mapUpdOn, List.map_cons] at *
    rw [ih (fun hm => h (by simp [hm]))]
    by_cases hT : p.key ∈ T
    · simp [hT, h1]
    · simp [hT, h1]

theorem updFirst_mapUpdOn (content : Str → Str) (k : Str) (T : List Str) :
    ∀ ps : List Part, (ps.map Part.key).Nodup →
      updFirst k (content k) (mapUpdOn content T ps) = mapUpdOn content (k :: T) ps := by
  intro ps
  induction ps with
  | nil => intro _; rfl
  | cons p ps ih =>
    intro hnd
    simp only [List.map_cons, List.nodup_cons] at hnd
    obtain ⟨hpnot, hndtail⟩ := hnd
    by_cases hpk : p.key = k
    · have hknotin : k ∉ ps.map Part.key := by rw [← hpk]; exact hpnot
      have htail := @mapUpdOn_not_mem content k T ps hknotin
      simp only [mapUpdOn] at htail
      by_cases hT : p.key ∈ T
      · have hmem : p.key ∈ k :: T := by simp [hT]
        simp only [mapUpdOn, List.map_cons, if_pos hT, if_pos hmem]
        rw [show updFirst k (content k)
            (({ p with inner := content p.key }) :: List.map
              (fun q => if q.key ∈ T then { q with inner := content q.key } else q) ps) =
            ({ p with inner := content k }) :: List.map
              (fun q => if q.key ∈ T then { q with inner := content q.key } else q) ps
          from by simp [updFirst, hpk]]
        rw [htail, hpk]
      · have hmem : p.key ∈ k :: T := by simp [hpk]
        simp only [mapUpdOn, List.map_cons, if_neg hT, if_pos hmem]
        rw [show updFirst k (content k)
            (p :: List.map
              (fun q => if q.key ∈ T then { q with inner := content q.key } else q) ps) =
            ({ p with inner := content k }) :: List.map
              (fun q => if q.key ∈ T then { q with inner := content q.key } else q) ps
          from by simp [updFirst, hpk]]
        rw [htail, hpk]
    · by_cases hT : p.key ∈ T
      · have hmem : p.key ∈ k :: T := by simp [hT]
        simp only [mapUpdOn, List.map_cons, if_pos hT, if_pos hmem]
        rw [show updFirst k (content k)
            (({ p with inner := content p.key }) :: List.map
              (fun q => if q.key ∈ T then { q with inner := content q.key } else q) ps) =
            ({ p with inner := content p.key }) :: updFirst k (content k) (List.map
              (fun q => if q.key ∈ T then { q with inner := content q.key } else q) ps)
          from by simp [updFirst, hpk]]
        have hihl := ih hndtail
        simp only [mapUpdOn] at hihl
        rw [hihl]
      · have hmem : ¬ p.key ∈ k :: T := by simp [hpk, hT]
        simp only [mapUpdOn, List.map_cons, if_neg hT, if_neg hmem]
        rw [show updFirst k (content k)
            (p :: List.map
              (fun q => if q.key ∈ T then { q with inner := content q.key } else q) ps) =
            p :: updFirst k (content k) (List.map
              (fun q => if q.key ∈ T then { q with inner := content q.key } else q) ps)
          from by simp [updFirst, hpk]]
        have hihl := ih hndtail
        simp only [mapUpdOn] at hihl
        rw [hihl]

theorem foldl_updFirst (content : Str → Str) :
    ∀ (ks T : List Str) (ps : List Part), (ps.map Part.key).Nodup →
      ks.foldl (fun acc k2 => updFirst k2 (content k2) acc) (mapUpdOn content T ps) =
        mapUpdOn content (ks.reverse ++ T) ps := by
  intro ks
  induction ks with
  | nil => intro T ps _; simp
  | cons k ks ih =>
    intro T ps hnd
    simp only [List.foldl_cons]
    rw [updFirst_mapUpdOn content k T ps hnd, ih (k :: T) ps hnd]
    congr 1
    simp

theorem mapUpdOn_nil_eq (content : Str → Str) (ps : List Part) :
    mapUpdOn content [] ps = ps := by
  simp [mapUpdOn]

theorem mapUpdOn_full (content : Str → Str) (T : List Str) :
    ∀ ps : List Part, (∀ k2 ∈ ps.map Part.key, k2 ∈ T) →
      mapUpdOn content T ps = ps.map fun p => { p with inner := content p.key } := by
  intro ps
  induction ps with
  | nil => intro _; rfl
  | cons p ps ih =>
    intro hcov
    have hp : p.key ∈ T := hcov p.key (by simp)
    simp only [mapUpdOn, List.map_cons, if_pos hp]
    have := ih (fun k2 hk2 => hcov k2 (by simp [hk2]))
    simp only [mapUpdOn] at this
    rw [this]

theorem joinSpace_ltFree {l : List Str} (h : ∀ b ∈ l, ltFree b) :
    ltFree (joinSpace l) := by
  induction l with
  | nil => intro hm; simp [joinSpace] at hm
  | cons b rest ih =>
    cases rest with
    | nil =>
      intro hm
      exact h b (by simp) (by simpa [joinSpace] using hm)
    | cons b2 rest2 =>
      intro hm
      rw [show joinSpace (b :: b2 :: rest2) =
        b ++ " ".data ++ joinSpace (b2 :: rest2) from rfl] at hm
      rw [List.mem_append, List.mem_append] at hm
      rcases hm with (hm | hm) | hm
      · exact h b (by simp) hm
      · simp at hm
      · exact ih (fun x hx => h x (by simp [hx])) hm

theorem joinSpace_bsFree {l : List Str} (h : ∀ b ∈ l, bsFree b) :
    bsFree (joinSpace l) := by
  induction l with
  | nil => intro hm; simp [joinSpace] at hm
  | cons b rest ih =>
    cases rest with
    | nil =>
      intro hm
      exact h b (by simp) (by simpa [joinSpace] using hm)
    | cons b2 rest2 =>
      intro hm
      rw [show joinSpace (b :: b2 :: rest2) =
        b ++ " ".data ++ joinSpace (b2 :: rest2) from rfl] at hm
      rw [List.mem_append, List.mem_append] at hm
      rcases hm with (hm | hm) | hm
      · exact h b (by simp) hm
      · simp at hm
      · exact ih (fun x hx => h x (by simp [hx])) hm

/- ### The scanner on canonical documents -/
theorem dropWS_length (t : Str) : (dropWS t).length ≤ t.length := by
  induction t with
  | nil => simp [dropWS]
  | cons c r ih =>
    by_cases hc : isSpaceChar c = true
    · simp only [dropWS, hc, if_true, List.length_cons]
      omega
    · simp [dropWS, hc]

theorem munchKey_length (t : Str) : (munchKey t).2.length ≤ t.length := by
  induction t with
  | nil => simp [munchKey]
  | cons c r ih =>
    by_cases hc : isKeyChar c = true
    · simp only [munchKey, hc, if_true, List.length_cons]
      omega
    · simp [munchKey, hc]

theorem parseStartSent_length {t k r : Str} (h : parseStartSent t = some (k, r)) :
    r.length + 4 ≤ t.length := by
  unfold parseStartSent at h
  cases h1 : dropLit "<!--".data t with
  | none => rw [h1] at h; simp at h
  | some t1 =>
    rw [h1] at h
    simp only [Option.some_bind] at h
    cases h2 : dropLit "PROJECTS:".data (dropWS t1) with
    | none => rw [h2] at h; simp at h
    | some t2 =>
      rw [h2] at h
      simp only [Option.some_bind] at h
      by_cases hk : (munchKey t2).1 = []
      · rw [if_pos hk] at h; simp at h
      · rw [if_neg hk] at h
        simp only [Option.some_bind] at h
        cases h3 : dropLit ":START".data (munchKey t2).2 with
        | none => rw [h3] at h; simp at h
        | some t3 =>
          rw [h3] at h
          simp only [Option.some_bind] at h
          cases h4 : dropLit "-->".data (dropWS t3) with
          | none => rw [h4] at h; simp at h
          | some t4 =>
            rw [h4] at h
            simp only [Option.map_some', Option.some.injEq, Prod.mk.injEq] at h
            obtain ⟨hkk, hr⟩ := h
            have e1 : t.length = t1.length + 4 := by
              rw [dropLit_some h1]
              simp [List.length_append, show ("<!--".data : Str).length = 4 from rfl]
            have e2 : (dropWS t1).length = t2.length + 9 := by
              rw [dropLit_some h2]
              simp [List.length_append, show ("PROJECTS:".data : Str).length = 9 from rfl]
            have e3 : (munchKey t2).2.length = t3.length + 6 := by
              rw [dropLit_some h3]
              simp [List.length_append, show ((":START".data : Str)).length = 6 from rfl]
            have e4 : (dropWS t3).length = t4.length + 3 := by
              rw [dropLit_some h4]
              simp [List.length_append, show (("-->".data : Str)).length = 3 from rfl]
            have l1 := dropWS_length t1
            have l2 := munchKey_length t2
            have l3 := dropWS_length t3
            rw [← hr]
            omega

theorem parseEndSent_length {k t r : Str} (h : parseEndSent k t = some r) :
    r.length ≤ t.length := by
  unfold parseEndSent at h
  cases h1 : dropLit "<!--".data t with
  | none => rw [h1] at h; simp at h
  | some t1 =>
    rw [h1] at h
    simp only [Option.some_bind] at h
    cases h2 : dropLit ("PROJECTS:".data ++ k ++ ":END".data) (dropWS t1) with
    | none => rw [h2] at h; simp at h
    | some t2 =>
      rw [h2] at h
      simp only [Option.some_bind] at h
      cases h3 : dropLit "-->".data (dropWS t2) with
      | none => rw [h3] at h; simp at h
      | some t3 =>
        rw [h3] at h
        simp only [Option.map_some', Option.some.injEq] at h
        have e1 : t.length = t1.length + 4 := by
          rw [dropLit_some h1]
          simp [List.length_append, show ("<!--".data : Str).length = 4 from rfl]
        have e2 : (dropWS t1).length = t2.length +
            ("PROJECTS:".data ++ k ++ ":END".data : Str).length := by
          rw [dropLit_some h2]
          simp [List.length_append]
          omega
        have e3 : (dropWS t2).length = t3.length + 3 := by
          rw [dropLit_some h3]
          simp [List.length_append, show (("-->".data : Str)).length = 3 from rfl]
        have l1 := dropWS_length t1
        have l2 := dropWS_length t2
        rw [← h]
        omega

theorem findEnd_length {k : Str} : ∀ {t i r : Str}, findEnd k t = some (i, r) →
    r.length ≤ t.length := by
  intro t
  induction t with
  | nil =>
    intro i r h
    rw [show findEnd k [] = none from rfl] at h
    simp at h
  | cons c rest ih =>
    intro i r h
    cases hp : parseEndSent k (c :: rest) with
    | some r2 =>
      have heq : findEnd k (c :: rest) = some ([], r2) := by simp [findEnd, hp]
      rw [heq] at h
      simp only [Option.some.injEq, Prod.mk.injEq] at h
      rw [← h.2]
      exact parseEndSent_length hp
    | none =>
      have heq : findEnd k (c :: rest) =
          (findEnd k rest).map fun p => (c :: p.1, p.2) := by simp [findEnd, hp]
      rw [heq] at h
      cases hf : findEnd k rest with
      | none => rw [hf] at h; simp at h
      | some pr =>
        obtain ⟨i2, r2⟩ := pr
        rw [hf] at h
        simp only [Option.map_some', Option.some.injEq, Prod.mk.injEq] at h
        have := ih hf
        rw [← h.2]
        simp only [List.length_cons]
        omega

theorem tryPair_length {t k after : Str} (h : tryPair t = some (k, after)) :
    after.length < t.length := by
  cases h1 : parseStartSent t with
  | none =>
    have hcomp : tryPair t = none := by simp [tryPair, h1]
    rw [hcomp] at h; simp at h
  | some pr =>
    obtain ⟨k1, r1⟩ := pr
    cases h2 : findEnd k1 r1 with
    | none =>
      have hcomp : tryPair t = none := by simp [tryPair, h1, h2]
      rw [hcomp] at h; simp at h
    | some pr2 =>
      obtain ⟨i2, r2⟩ := pr2
      have hcomp : tryPair t = some (k1, r2) := by simp [tryPair, h1, h2]
      have h3 := hcomp.symm.trans h
      simp only [Option.some.injEq, Prod.mk.injEq] at h3
      have l1 := parseStartSent_length h1
      have l2 := findEnd_length h2
      rw [← h3.2]
      omega

theorem scanAux_fuel : ∀ (f g : Nat) (t : Str), t.length ≤ f → t.length ≤ g →
    scanAux f t = scanAux g t := by
  intro f
  induction f with
  | zero =>
    intro g t hf hg
    have ht : t = [] := List.eq_nil_of_length_eq_zero (Nat.le_zero.mp hf)
    subst ht
    cases g <;> simp [scanAux]
  | succ f ihf =>
    intro g t hf hg
    cases t with
    | nil => cases g <;> simp [scanAux]
    | cons c rest =>
      cases g with
      | zero => simp at hg
      | succ g1 =>
        cases htp : tryPair (c :: rest) with
        | some pr =>
          obtain ⟨k, after⟩ := pr
          have hlen := tryPair_length htp
          simp only [List.length_cons] at hlen hf hg
          simp only [scanAux, htp]
          rw [ihf g1 after (by omega) (by omega)]
        | none =>
          simp only [List.length_cons] at hf hg
          simp only [scanAux, htp]
          exact ihf g1 rest (by omega) (by omega)

theorem scanKeys_match {t k after : Str} (h : tryPair t = some (k, after)) :
    scanKeys t = k :: scanKeys after := by
  cases t with
  | nil =>
    rw [show tryPair [] = none from rfl] at h
    simp at h
  | cons c rest =>
    have hlen := tryPair_length h
    simp only [List.length_cons] at hlen
    rw [scanKeys]
    simp only [List.length_cons]
    rw [show scanAux (rest.length + 1) (c :: rest) = k :: scanAux rest.length after from by
      simp [scanAux, h]]
    rw [scanKeys]
    rw [scanAux_fuel rest.length after.length after (by omega) (le_refl _)]

theorem tryPair_not_lt {c : Char} (hc : c ≠ '<') (t : Str) : tryPair (c :: t) = none := by
  have hb : (('<' : Char) == c) = false := by
    rw [beq_eq_false_iff_ne]
    exact fun hh => hc hh.symm
  have hdrop : dropLit "<!--".data (c :: t) = none := by
    rw [show ("<!--".data : Str) = '<' :: "!--".data from rfl]
    simp [dropLit, List.isPrefixOf, hb]
  simp [tryPair, parseStartSent, hdrop]

theorem scanKeys_skip : ∀ {a : Str}, ltFree a → ∀ X, scanKeys (a ++ X) = scanKeys X := by
  intro a
  induction a with
  | nil => intro _ X; simp
  | cons c a1 ih =>
    intro ha X
    have hc : c ≠ '<' := by
      intro hcc
      exact ha (by simp [ltFree, hcc])
    have hfree : ltFree a1 := fun hm => ha (by simp [ltFree, hm])
    rw [show (c :: a1) ++ X = c :: (a1 ++ X) from rfl]
    rw [scanKeys]
    simp only [List.length_cons]
    rw [show scanAux ((a1 ++ X).length + 1) (c :: (a1 ++ X)) =
        scanAux (a1 ++ X).length (a1 ++ X) from by
      simp [scanAux, tryPair_not_lt hc]]
    rw [show scanAux (a1 ++ X).length (a1 ++ X) = scanKeys (a1 ++ X) from rfl]
    exact ih hfree X

theorem scanKeys_ltFree {a : Str} (ha : ltFree a) : scanKeys a = [] := by
  have h := scanKeys_skip ha []
  rw [List.append_nil] at h
  rw [h]
  rfl

theorem munchKey_exact : ∀ {k : Str}, (∀ c ∈ k, isKeyChar c = true) → ∀ y : Str,
    munchKey (k ++ ':' :: y) = (k, ':' :: y) := by
  intro k
  induction k with
  | nil =>
    intro _ y
    simp [munchKey, show isKeyChar ':' = false from rfl]
  | cons c k1 ih =>
    intro h y
    have hc : isKeyChar c = true := h c (by simp)
    rw [show (c :: k1) ++ ':' :: y = c :: (k1 ++ ':' :: y) from rfl]
    simp [munchKey, hc, ih (fun c2 hc2 => h c2 (by simp [hc2])) y]

theorem dropWS_space (w : Str) : dropWS (' ' :: w) = dropWS w := by
  simp [dropWS, isSpaceChar]

theorem dropWS_cons {c : Char} (hc : isSpaceChar c = false) (w : Str) :
    dropWS (c :: w) = c :: w := by
  simp [dropWS, hc]

theorem parseStart_at {k : Str} (hk : goodKey k) (y : Str) :
    parseStartSent (startM k ++ y) = some (k, y) := by
  obtain ⟨hne, hkc⟩ := hk
  have e1 : startM k ++ y =
      "<!--".data ++ (' ' :: ("PROJECTS:".data ++ (k ++ (":START -->".data ++ y)))) := by
    rw [show startM k = "<!-- PROJECTS:".data ++ k ++ ":START -->".data from rfl,
        show ("<!-- PROJECTS:".data : Str) = "<!--".data ++ (' ' :: "PROJECTS:".data) from rfl]
    simp [List.append_assoc]
  have h2 : dropLit "PROJECTS:".data
      (dropWS (' ' :: ("PROJECTS:".data ++ (k ++ (":START -->".data ++ y))))) =
      some (k ++ (":START -->".data ++ y)) := by
    rw [dropWS_space,
        show ("PROJECTS:".data ++ (k ++ (":START -->".data ++ y)) : Str) =
          'P' :: ("ROJECTS:".data ++ (k ++ (":START -->".data ++ y))) from rfl,
        dropWS_cons (show isSpaceChar 'P' = false from by decide),
        show ('P' :: ("ROJECTS:".data ++ (k ++ (":START -->".data ++ y))) : Str) =
          "PROJECTS:".data ++ (k ++ (":START -->".data ++ y)) from rfl]
    exact dropLit_exact _ _
  have hmk : munchKey (k ++ (":START -->".data ++ y)) =
      (k, ':' :: ("START -->".data ++ y)) := by
    rw [show (":START -->".data ++ y : Str) = ':' :: ("START -->".data ++ y) from rfl]
    exact munchKey_exact hkc _
  have h3 : dropLit ":START".data (':' :: ("START -->".data ++ y)) =
      some (' ' :: ("-->".data ++ y)) := by
    rw [show (':' :: ("START -->".data ++ y) : Str) =
        ":START".data ++ (' ' :: ("-->".data ++ y)) from rfl]
    exact dropLit_exact _ _
  have h4 : dropLit "-->".data (dropWS (' ' :: ("-->".data ++ y))) = some y := by
    rw [dropWS_space,
        show ("-->".data ++ y : Str) = '-' :: ("->".data ++ y) from rfl,
        dropWS_cons (show isSpaceChar '-' = false from by decide),
        show ('-' :: ("->".data ++ y) : Str) = "-->".data ++ y from rfl]
    exact dropLit_exact _ _
  rw [e1]
  simp only [parseStartSent]
  rw [dropLit_exact]
  simp only [Option.some_bind]
  rw [h2]
  simp only [Option.some_bind]
  rw [hmk]
  simp only [if_neg hne, Option.some_bind]
  rw [h3]
  simp only [Option.some_bind]
  rw [h4]
  simp only [Option.map_some']

theorem parseEnd_at {k : Str} (_hkc : ∀ c ∈ k, isKeyChar c = true) (z : Str) :
    parseEndSent k (endM k ++ z) = some z := by
  have e1 : endM k ++ z =
      "<!--".data ++ (' ' :: ("PROJECTS:".data ++ (k ++ (":END -->".data ++ z)))) := by
    rw [show endM k = "<!-- PROJECTS:".data ++ k ++ ":END -->".data from rfl,
        show ("<!-- PROJECTS:".data : Str) = "<!--".data ++ (' ' :: "PROJECTS:".data) from rfl]
    simp [List.append_assoc]
  have hW : ("PROJECTS:".data ++ (k ++ (":END -->".data ++ z)) : Str) =
      ("PROJECTS:".data ++ k ++ ":END".data) ++ (' ' :: ("-->".data ++ z)) := by
    rw [show (":END -->".data ++ z : Str) =
        ":END".data ++ (' ' :: ("-->".data ++ z)) from rfl]
    simp [List.append_assoc]
  have h2 : dropLit ("PROJECTS:".data ++ k ++ ":END".data)
      (dropWS (' ' :: ("PROJECTS:".data ++ (k ++ (":END -->".data ++ z))))) =
      some (' ' :: ("-->".data ++ z)) := by
    rw [dropWS_space,
        show ("PROJECTS:".data ++ (k ++ (":END -->".data ++ z)) : Str) =
          'P' :: ("ROJECTS:".data ++ (k ++ (":END -->".data ++ z))) from rfl,
        dropWS_cons (show isSpaceChar 'P' = false from by decide),
        show ('P' :: ("ROJECTS:".data ++ (k ++ (":END -->".data ++ z))) : Str) =
          "PROJECTS:".data ++ (k ++ (":END -->".data ++ z)) from rfl,
        hW]
    exact dropLit_exact _ _
  have h3 : dropLit "-->".data (dropWS (' ' :: ("-->".data ++ z))) = some z := by
    rw [dropWS_space,
        show ("-->".data ++ z : Str) = '-' :: ("->".data ++ z) from rfl,
        dropWS_cons (show isSpaceChar '-' = false from by decide),
        show ('-' :: ("->".data ++ z) : Str) = "-->".data ++ z from rfl]
    exact dropLit_exact _ _
  rw [e1]
  simp only [parseEndSent]
  rw [dropLit_exact]
  simp only [Option.some_bind]
  rw [h2]
  simp only [Option.some_bind]
  rw [h3]
  simp only [Option.map_some']

theorem parseEndSent_not_lt {k : Str} {c : Char} (hc : c ≠ '<') (t : Str) :
    parseEndSent k (c :: t) = none := by
  have hb : (('<' : Char) == c) = false := by
    rw [beq_eq_false_iff_ne]
    exact fun hh => hc hh.symm
  have hdrop : dropLit "<!--".data (c :: t) = none := by
    rw [show ("<!--".data : Str) = '<' :: "!--".data from rfl]
    simp [dropLit, List.isPrefixOf, hb]
  simp [parseEndSent, hdrop]

theorem findEnd_skip {k : Str} : ∀ {a : Str}, ltFree a → ∀ X,
    findEnd k (a ++ X) = (findEnd k X).map fun p => (a ++ p.1, p.2) := by
  intro a
  induction a with
  | nil =>
    intro _ X
    rw [List.nil_append]
    cases findEnd k X <;> simp
  | cons c a1 ih =>
    intro ha X
    have hc : c ≠ '<' := by
      intro hcc
      exact ha (by simp [ltFree, hcc])
    have hfree : ltFree a1 := fun hm => ha (by simp [ltFree, hm])
    rw [show (c :: a1) ++ X = c :: (a1 ++ X) from rfl]
    simp only [findEnd, parseEndSent_not_lt hc]
    rw [ih hfree X]
    cases findEnd k X <;> simp

theorem findEnd_of_parse {k t r : Str} (h : parseEndSent k t = some r) :
    findEnd k t = some ([], r) := by
  cases t with
  | nil => simp [findEnd, h]
  | cons c rest => simp [findEnd, h]

theorem tryPair_at {k : Str} (hk : goodKey k) {i : Str} (hi : ltFree i) (Z : Str) :
    tryPair (startM k ++ (i ++ (endM k ++ Z))) = some (k, Z) := by
  have h1 : parseStartSent (startM k ++ (i ++ (endM k ++ Z))) =
      some (k, i ++ (endM k ++ Z)) := parseStart_at hk _
  have h2 : findEnd k (i ++ (endM k ++ Z)) = some (i, Z) := by
    rw [findEnd_skip hi, findEnd_of_parse (parseEnd_at hk.2 Z)]
    simp
  simp [tryPair, h1, h2]

theorem scan_assemble : ∀ (seg0 : Str) (ps : List Part), WF seg0 ps →
    scanKeys (assemble seg0 ps) = ps.map Part.key := by
  intro seg0 ps
  induction ps generalizing seg0 with
  | nil =>
    intro hwf
    rw [assemble]
    exact scanKeys_ltFree hwf.1
  | cons p ps ih =>
    intro hwf
    obtain ⟨hseg0, hnd, hall⟩ := hwf
    obtain ⟨hgp, hinner, hseg⟩ := hall p (by simp)
    have harr : assemble seg0 (p :: ps) =
        seg0 ++ (startM p.key ++ (p.inner ++ (endM p.key ++ assemble p.seg ps))) := by
      rw [assemble]
      simp [List.append_assoc]
    rw [harr, scanKeys_skip hseg0]
    rw [scanKeys_match (tryPair_at hgp hinner (assemble p.seg ps))]
    rw [ih p.seg ⟨hseg, by simpa using hnd.of_cons, fun q hq => hall q (by simp [hq])⟩]
    simp

/-- C1 (amended): on canonical documents — plain text and inner texts free
of `<`, each region delimited by the exact single-space sentinel pair, keys
good and pairwise distinct — and for badge texts free of `<` (a badge
containing `<` could form new sentinels) and of `\` (a badge containing a
backslash is expanded as a replacement template and can re-insert old text
or raise), the scanner finds exactly the region keys in document order, and
the orchestrator's replacement step, run over the found keys in any order,
succeeds and rewrites the text strictly between every key's sentinel pair
to the space-joined badge sequence of that key (the empty string when the
key has no badges, since joining no badges gives the empty string),
preserving the sentinels and all text outside the pairs verbatim.  The
original claim fails on non-canonical documents: the scanner's pattern
allows arbitrary whitespace inside a sentinel, while the replacer matches
only the exact single-space sentinel text, so a scanned key's region can be
left unrewritten (see the counterexample). -/
theorem claim_C1 (seg0 : Str) (ps : List Part) (badges : Str → List Str)
    (hwf : WF seg0 ps) (hfree : ∀ k2, ∀ b ∈ badges k2, ltFree b)
    (hbs : ∀ k2, ∀ b ∈ badges k2, bsFree b)
    (ks : List Str) (hks : ks.Perm (scanKeys (assemble seg0 ps))) :
    scanKeys (assemble seg0 ps) = ps.map Part.key ∧
    updateAll (assemble seg0 ps) ks (fun k2 => joinSpace (badges k2)) =
      .ok (assemble seg0
        (ps.map fun p => { p with inner := joinSpace (badges p.key) })) := by
  have hscan : scanKeys (assemble seg0 ps) = ps.map Part.key := scan_assemble seg0 ps hwf
  refine ⟨hscan, ?_⟩
  have hksmem : ∀ k2, k2 ∈ ks ↔ k2 ∈ ps.map Part.key := by
    intro k2
    rw [hks.mem_iff, hscan]
  have hgood : ∀ k2 ∈ ks, goodKey k2 := by
    intro k2 hk2
    obtain ⟨p, hp, hpk⟩ := List.mem_map.mp ((hksmem k2).mp hk2)
    rw [← hpk]
    exact (hwf.2.2 p hp).1
  have hcfree : ∀ k2, ltFree (joinSpace (badges k2)) := fun k2 =>
    joinSpace_ltFree (hfree k2)
  have hcbs : ∀ k2, bsFree (joinSpace (badges k2)) := fun k2 =>
    joinSpace_bsFree (hbs k2)
  rw [updateAll_assemble (fun k2 => joinSpace (badges k2)) hcfree hcbs ks hgood
    seg0 ps hwf]
  have hnd : (ps.map Part.key).Nodup := hwf.2.1
  have hfold := foldl_updFirst (fun k2 => joinSpace (badges k2)) ks [] ps hnd
  rw [mapUpdOn_nil_eq] at hfold
  rw [hfold]
  rw [mapUpdOn_full (fun k2 => joinSpace (badges k2)) (ks.reverse ++ []) ps
    (fun k2 hk2 => by simpa using (hksmem k2).mpr hk2)]

/-- C1 counterexample: in the document
`<!--PROJECTS:c:START-->OLD<!--PROJECTS:c:END-->` the scanner (whose
pattern allows zero whitespace inside a sentinel) finds the key `c`, the
key has no badge group, yet the replacement step — which matches only the
exact single-space sentinel text — returns the document unchanged: the
region's inner text `OLD` is not cleared to empty, contradicting the
claimed invariant. -/
theorem claim_C1_counterexample :
    scanKeys "<!--PROJECTS:c:START-->OLD<!--PROJECTS:c:END-->".data = [['c']] ∧
    replace_between_markers
        "<!--PROJECTS:c:START-->OLD<!--PROJECTS:c:END-->".data ['c'] [] =
      .ok "<!--PROJECTS:c:START-->OLD<!--PROJECTS:c:END-->".data ∧
    updateAll "<!--PROJECTS:c:START-->OLD<!--PROJECTS:c:END-->".data [['c']]
        (fun _ => joinSpace []) =
      .ok "<!--PROJECTS:c:START-->OLD<!--PROJECTS:c:END-->".data := by
  refine ⟨by decide, by rfl, by rfl⟩

/-- C1 witness: a canonical two-region document, keys `a` (two badges) and
`b` (no badges), updated over the scanned keys in reversed order. -/
theorem claim_C1_witness :
    scanKeys (assemble "T".data
        [⟨"a".data, "x".data, "u".data⟩, ⟨"b".data, "y".data, "v".data⟩]) =
      ([⟨"a".data, "x".data, "u".data⟩,
        ⟨"b".data, "y".data, "v".data⟩] : List Part).map Part.key ∧
    updateAll (assemble "T".data
        [⟨"a".data, "x".data, "u".data⟩, ⟨"b".data, "y".data, "v".data⟩])
      ["b".data, "a".data]
      (fun k2 => joinSpace (if k2 = "a".data then ["m".data, "n".data] else [])) =
      .ok (assemble "T".data
        (([⟨"a".data, "x".data, "u".data⟩, ⟨"b".data, "y".data, "v".data⟩] :
            List Part).map fun p =>
          { p with inner :=
              joinSpace (if p.key = "a".data then ["m".data, "n".data] else []) })) :=
  claim_C1 "T".data
    [⟨"a".data, "x".data, "u".data⟩, ⟨"b".data, "y".data, "v".data⟩]
    (fun k2 => if k2 = "a".data then ["m".data, "n".data] else [])
    (by unfold WF ltFree goodKey; decide)
    (by
      intro k2 b hb
      have hb2 : b ∈ (if k2 = "a".data then ["m".data, "n".data] else []) := hb
      by_cases hk : k2 = "a".data
      · rw [if_pos hk] at hb2
        simp only [List.mem_cons, List.not_mem_nil, or_false] at hb2
        unfold ltFree
        rcases hb2 with hb2 | hb2 <;> subst hb2 <;> decide
      · rw [if_neg hk] at hb2
        simp at hb2)
    (by
      intro k2 b hb
      have hb2 : b ∈ (if k2 = "a".data then ["m".data, "n".data] else []) := hb
      by_cases hk : k2 = "a".data
      · rw [if_pos hk] at hb2
        simp only [List.mem_cons, List.not_mem_nil, or_false] at hb2
        unfold bsFree
        rcases hb2 with hb2 | hb2 <;> subst hb2 <;> decide
      · rw [if_neg hk] at hb2
        simp at hb2)
    ["b".data, "a".data]
    (by decide)

end UpdateReadme
